import Mathlib

/-!
Verification of the afl-support language server core against its source.

The development shallowly embeds the TypeScript sources:
  * `src/server/src/rules/functions.ts` — the lint rule `checkFunctionSpaces`
    and the quick-fix generator `fixFunctionSapces` (source spelling kept);
  * `src/server/src/util.ts` — `stripStrings`, `getAST` (as an abstract
    parser returning `Option`);
  * `src/server/src/symbolTable.ts` — `analyzeText`, `getWordAtPosition`;
  * `src/server/src/server.ts` — the document-close / completion handlers
    and the debounced re-index scheduling.

Strings are modelled as `List Char`; JavaScript `Map` objects as
insertion-ordered association lists with overwrite-in-place `set`.
-/

namespace AflSupport

/-! ## Character classes

JavaScript regex classes used by the sources.  `\s` additionally matches
Unicode whitespace; the embedding models the ASCII subset, which is the
range the lint rule is exercised on. -/

def isWordChar (c : Char) : Bool := c.isAlpha || c.isDigit || c = '_'

def isIdentStart (c : Char) : Bool := c.isAlpha || c = '_'

def isSpaceJS (c : Char) : Bool :=
  c = ' ' || c = '\t' || c = '\n' || c = '\r' || c = '\x0b' || c = '\x0c'

/-! ## Generic list/string helpers (JS string primitives) -/

/-- `pat` occurs at the head of `l`. -/
def listStartsWith : List Char → List Char → Bool
  | [], _ => true
  | _ :: _, [] => false
  | p :: ps, c :: cs => p = c && listStartsWith ps cs

/-- `String.prototype.includes` for a fixed pattern. -/
def containsSub (pat : List Char) : List Char → Bool
  | [] => listStartsWith pat []
  | c :: rest => listStartsWith pat (c :: rest) || containsSub pat rest

/-- Index of the first occurrence of `pat` (JS `indexOf` for substrings). -/
def indexOfSub (pat : List Char) : List Char → Option Nat
  | [] => if listStartsWith pat [] then some 0 else none
  | c :: rest =>
      if listStartsWith pat (c :: rest) then some 0
      else (indexOfSub pat rest).map (· + 1)

/-- JS `String.prototype.indexOf(ch, fromIndex)`; the fuel argument only
bounds the iteration so that the recursion is structural (the wrapper
passes enough for the whole string). -/
def strIndexOfF (l : List Char) (ch : Char) : Nat → Nat → Option Nat
  | 0, _ => none
  | fuel + 1, start =>
      if start < l.length then
        if l.get? start = some ch then some start else strIndexOfF l ch fuel (start + 1)
      else none

def strIndexOf (l : List Char) (ch : Char) (start : Nat) : Option Nat :=
  strIndexOfF l ch (l.length - start) start

theorem strIndexOf_unfold (l : List Char) (ch : Char) (start : Nat) :
    strIndexOf l ch start =
      if start < l.length then
        if l.get? start = some ch then some start else strIndexOf l ch (start + 1)
      else none := by
  unfold strIndexOf
  by_cases h : start < l.length
  · have h2 : l.length - start = (l.length - (start + 1)) + 1 := by omega
    rw [h2]
    simp only [strIndexOfF, if_pos h]
  · rw [Nat.sub_eq_zero_of_le (by omega)]
    simp only [strIndexOfF, if_neg h]

/-- JS `String.prototype.lastIndexOf(ch)`. -/
def lastIndexOfChar (l : List Char) (ch : Char) : Option Nat :=
  match l with
  | [] => none
  | c :: rest =>
      match lastIndexOfChar rest ch with
      | some i => some (i + 1)
      | none => if c = ch then some 0 else none

/-- First index at or after `start` whose character fails `p`
(the end of a maximal `p`-run; used for greedy `X*` regex runs).
Structural fuel recursion; the wrapper passes enough fuel. -/
def scanEndF (p : Char → Bool) (l : List Char) : Nat → Nat → Nat
  | 0, start => start
  | fuel + 1, start =>
      match l.get? start with
      | some c => if p c then scanEndF p l fuel (start + 1) else start
      | none => start

def scanEnd (p : Char → Bool) (l : List Char) (start : Nat) : Nat :=
  scanEndF p l (l.length - start) start

theorem scanEnd_unfold (p : Char → Bool) (l : List Char) (start : Nat) :
    scanEnd p l start =
      match l.get? start with
      | some c => if p c then scanEnd p l (start + 1) else start
      | none => start := by
  unfold scanEnd
  cases hg : l.get? start with
  | none =>
      have : l.length ≤ start := by
        by_contra hcon
        push_neg at hcon
        rw [List.get?_eq_get hcon] at hg
        cases hg
      rw [Nat.sub_eq_zero_of_le this]
      rfl
  | some c =>
      have h1 : start < l.length := (List.get?_eq_some.mp hg).1
      have h2 : l.length - start = (l.length - (start + 1)) + 1 := by omega
      rw [h2]
      simp only [scanEndF, hg]

/-- `text.split(/\r?\n/)` from `functions.ts` line 13 / `symbolTable.ts`. -/
def splitLines : List Char → List (List Char)
  | [] => [[]]
  | '\r' :: '\n' :: rest => [] :: splitLines rest
  | '\n' :: rest => [] :: splitLines rest
  | c :: rest =>
      match splitLines rest with
      | line :: lines => (c :: line) :: lines
      | [] => [[c]]

/-! ## `stripStrings` (`util.ts` lines 8–10)

The source is `line.replace(/\\"([^\\"\\]|\\.)*\\"/g, m => ' '.repeat(m.length))`.
In a JS regex literal `\\` matches one literal backslash, so the pattern
recognises regions delimited by the two-character sequence backslash-quote,
with content items being either a character that is neither backslash nor
quote, or a backslash followed by any character.  The two content
alternatives are mutually exclusive, so the greedy star is deterministic up
to where it stops; backtracking picks the longest stop point that is
followed by a closing backslash-quote. -/

/-- Longest content-plus-closing-delimiter match after an opening `\"`:
returns the number of characters consumed (content and the final `\"`).
At a backslash the only applicable item is `\\.` (consume two); at a
quote no item applies; elsewhere the class item consumes one.  A
backslash-quote pair may either be consumed as content or close the
region; greedy backtracking prefers the longest successful choice. -/
def matchContent : List Char → Option Nat
  | [] => none
  | c :: rest =>
      if c = '\\' then
        match rest with
        | [] => none
        | c2 :: rest2 =>
            if c2 = '"' then some (((matchContent rest2).map (· + 2)).getD 2)
            else (matchContent rest2).map (· + 2)
      else if c = '"' then none
      else (matchContent rest).map (· + 1)

theorem matchContent_le (l : List Char) :
    ∀ n, matchContent l = some n → n ≤ l.length := by
  have H : ∀ (k : Nat) (l : List Char), l.length ≤ k →
      ∀ n, matchContent l = some n → n ≤ l.length := by
    intro k
    induction k with
    | zero =>
        intro l hl n h
        have hnil : l = [] := by cases l <;> simp_all
        subst hnil
        simp [matchContent] at h
    | succ k ih =>
        intro l hl n h
        match l with
        | [] => simp [matchContent] at h
        | c :: rest =>
          rw [matchContent.eq_def] at h
          by_cases hc : c = '\\'
          · simp only [hc, if_pos rfl] at h
            match rest with
            | [] => simp at h
            | c2 :: rest2 =>
              by_cases hc2 : c2 = '"'
              · simp only [hc2, if_pos rfl] at h
                cases hm : matchContent rest2 with
                | some m =>
                    have hb := ih rest2 (by simp at hl ⊢; omega) m hm
                    rw [hm] at h
                    simp at h
                    simp
                    omega
                | none => rw [hm] at h; simp at h; simp; omega
              · simp only [hc, if_pos rfl, if_neg hc2] at h
                cases hm : matchContent rest2 with
                | some m =>
                    have hb := ih rest2 (by simp at hl ⊢; omega) m hm
                    rw [hm] at h
                    simp at h
                    simp
                    omega
                | none => rw [hm] at h; simp at h
          · by_cases hq : c = '"'
            · simp [hq, if_neg hc] at h
            · simp only [if_neg hc, if_neg hq] at h
              cases hm : matchContent rest with
              | some m =>
                  have hb := ih rest (by simp at hl; omega) m hm
                  rw [hm] at h
                  simp at h
                  simp
                  omega
              | none => rw [hm] at h; simp at h
  exact H l.length l (le_refl _)

/-- Global replace of each matched region by a same-length run of blanks
(`line.replace(..., m => ' '.repeat(m.length))`, scanning left to right and
resuming after each match as JS global replace does).  Structural fuel
recursion: every step shortens the remaining input, so fuel equal to the
input length is enough and the fuel-exhausted branch is never taken. -/
def stripAuxF : Nat → List Char → List Char
  | 0, l => l
  | fuel + 1, l =>
      match l with
      | [] => []
      | '\\' :: '"' :: rest =>
          (match matchContent rest with
           | some n => List.replicate (n + 2) ' ' ++ stripAuxF fuel (rest.drop n)
           | none => '\\' :: stripAuxF fuel ('"' :: rest))
      | c :: rest => c :: stripAuxF fuel rest

def stripAux (l : List Char) : List Char := stripAuxF l.length l

def stripStrings (l : List Char) : List Char := stripAux l

/-! ## Diagnostics (vscode-languageserver-types shapes used by the rule) -/

structure Pos where
  line : Nat
  character : Nat
deriving DecidableEq, Repr

/-- An LSP range; `stop` is the exclusive end position (`range.end`). -/
structure Range where
  start : Pos
  stop : Pos
deriving DecidableEq, Repr

inductive Severity where
  | error
  | warning
  | information
  | hint
deriving DecidableEq, Repr

structure Diagnostic where
  severity : Severity
  range : Range
  message : String
  source : String
deriving DecidableEq, Repr

/-! ## The lint rule `checkFunctionSpaces` (`rules/functions.ts` lines 6–103)

The per-line pipeline, in source order:
  1. comment-block state transitions on sight of the markers;
  2. skip when the line is a line comment, contains a double quote, or the
     state is inside a comment block;
  3. drop the trailing `//` comment, blank string literals;
  4. scan with `/\b([A-Za-z_][A-Za-z0-9_]*)\s*\(/g`, depth-match the
     closing parenthesis, and check the argument substring's spacing. -/

def slashStar : List Char := ['/', '*']
def starSlash : List Char := ['*', '/']
def slashSlash : List Char := ['/', '/']

/-- `/^\s*\/\//.test(line)` (line 31). -/
def isLineComment (l : List Char) : Bool :=
  listStartsWith slashSlash (l.dropWhile isSpaceJS)

/-- `line.replace(/\/\/.*$/, '')` (line 36): truncate at the first `//`. -/
def removeLineComment (l : List Char) : List Char :=
  match indexOfSub slashSlash l with
  | some i => l.take i
  | none => l

/-- Word-boundary test of `\b` at position `i`: start of string or a
non-word character just before. -/
def boundaryOk (l : List Char) (i : Nat) : Bool :=
  match i with
  | 0 => true
  | i' + 1 =>
      match l.get? i' with
      | some c => !isWordChar c
      | none => false

/-- One attempt of `/\b([A-Za-z_][A-Za-z0-9_]*)\s*\(/` at position `i`:
`\b` demands position 0 or a non-word predecessor; then the greedy
identifier run ends at `j`, the greedy whitespace run ends at `k`, and the
character at `k` must be `(`.  Returns `(j, k)` on success.  (The two
greedy runs need no backtracking: a word character is never whitespace and
neither run can end on `(`.) -/
def matchCallAt (l : List Char) (i : Nat) : Option (Nat × Nat) :=
  match l.get? i with
  | some c =>
      if boundaryOk l i && isIdentStart c then
        let j := scanEnd isWordChar l (i + 1)
        let k := scanEnd isSpaceJS l j
        match l.get? k with
        | some c2 => if c2 = '(' then some (j, k) else none
        | none => none
      else none
  | none => none

theorem scanEnd_ge (p : Char → Bool) (l : List Char) (start : Nat) :
    start ≤ scanEnd p l start := by
  have H : ∀ (fuel start : Nat), start ≤ scanEndF p l fuel start := by
    intro fuel
    induction fuel with
    | zero => intro start; exact le_refl _
    | succ fuel ih =>
        intro start
        simp only [scanEndF]
        split
        · split
          · exact Nat.le_trans (Nat.le_succ start) (ih (start + 1))
          · exact le_refl _
        · exact le_refl _
  exact H _ start

theorem matchCallAt_bounds (l : List Char) (i j k : Nat)
    (h : matchCallAt l i = some (j, k)) :
    i < j ∧ j ≤ k ∧ k < l.length ∧ l.get? k = some '(' := by
  simp only [matchCallAt] at h
  split at h
  · rename_i c hg
    split at h
    · rename_i hcond
      split at h
      · rename_i c2 hk
        split at h
        · rename_i hc2
          cases h
          subst hc2
          refine ⟨?_, scanEnd_ge _ _ _, (List.get?_eq_some.mp hk).1, hk⟩
          exact Nat.lt_of_lt_of_le (Nat.lt_succ_self i) (scanEnd_ge _ _ _)
        · cases h
      · cases h
    · cases h
  · cases h

/-- `callStartPattern.exec(line)` from `lastIndex = pos`: the leftmost
match at or after `pos`.  Returns `(matchIndex, identifier end, index of
the opening parenthesis)`; the new `lastIndex` is the paren index + 1.
Structural fuel recursion; the wrapper passes enough fuel. -/
def findNextCallF (l : List Char) : Nat → Nat → Option (Nat × Nat × Nat)
  | 0, _ => none
  | fuel + 1, pos =>
      if pos < l.length then
        match matchCallAt l pos with
        | some (j, k) => some (pos, j, k)
        | none => findNextCallF l fuel (pos + 1)
      else none

def findNextCall (l : List Char) (pos : Nat) : Option (Nat × Nat × Nat) :=
  findNextCallF l (l.length - pos) pos

theorem findNextCall_unfold (l : List Char) (pos : Nat) :
    findNextCall l pos =
      if pos < l.length then
        match matchCallAt l pos with
        | some (j, k) => some (pos, j, k)
        | none => findNextCall l (pos + 1)
      else none := by
  unfold findNextCall
  by_cases h : pos < l.length
  · have h2 : l.length - pos = (l.length - (pos + 1)) + 1 := by omega
    rw [h2]
    simp only [findNextCallF, if_pos h]
  · rw [Nat.sub_eq_zero_of_le (by omega)]
    simp only [findNextCallF, if_neg h]

theorem findNextCall_bounds (l : List Char) (pos s j k : Nat)
    (h : findNextCall l pos = some (s, j, k)) :
    pos ≤ s ∧ s < j ∧ j ≤ k ∧ k < l.length ∧ l.get? k = some '(' := by
  have H : ∀ (fuel pos s j k : Nat), findNextCallF l fuel pos = some (s, j, k) →
      pos ≤ s ∧ s < j ∧ j ≤ k ∧ k < l.length ∧ l.get? k = some '(' := by
    intro fuel
    induction fuel with
    | zero => intro pos s j k hf; cases hf
    | succ fuel ih =>
        intro pos s j k hf
        simp only [findNextCallF] at hf
        split at hf
        · split at hf
          · rename_i j' k' hm
            cases hf
            have hb := matchCallAt_bounds l pos _ _ hm
            exact ⟨le_refl _, hb.1, hb.2.1, hb.2.2.1, hb.2.2.2⟩
          · have := ih (pos + 1) s j k hf
            exact ⟨Nat.le_trans (Nat.le_succ pos) this.1, this.2⟩
        · cases hf
  exact H (l.length - pos) pos s j k h

/-- The depth-counting loop of lines 53–65: starting at index `i` with the
running `depth`, update the depth at each character and stop at the first
index where it reaches zero.  Structural fuel recursion; the wrapper
passes enough fuel. -/
def findCloseAuxF (l : List Char) : Nat → Nat → Int → Option Nat
  | 0, _, _ => none
  | fuel + 1, i, depth =>
      match l.get? i with
      | none => none
      | some c =>
          let d := if c = '(' then depth + 1 else if c = ')' then depth - 1 else depth
          if d = 0 then some i else findCloseAuxF l fuel (i + 1) d

def findCloseAux (l : List Char) (i : Nat) (depth : Int) : Option Nat :=
  findCloseAuxF l (l.length - i) i depth

theorem findCloseAux_unfold (l : List Char) (i : Nat) (depth : Int) :
    findCloseAux l i depth =
      match l.get? i with
      | none => none
      | some c =>
          let d := if c = '(' then depth + 1 else if c = ')' then depth - 1 else depth
          if d = 0 then some i else findCloseAux l (i + 1) d := by
  unfold findCloseAux
  cases hg : l.get? i with
  | none =>
      have : l.length ≤ i := by
        by_contra hcon
        push_neg at hcon
        rw [List.get?_eq_get hcon] at hg
        cases hg
      rw [Nat.sub_eq_zero_of_le this]
      rfl
  | some c =>
      have h1 : i < l.length := (List.get?_eq_some.mp hg).1
      have h2 : l.length - i = (l.length - (i + 1)) + 1 := by omega
      rw [h2]
      simp only [findCloseAuxF, hg]

/-- Find the matching close parenthesis for the `(` at `openIdx`. -/
def findClose (l : List Char) (openIdx : Nat) : Option Nat :=
  findCloseAux l openIdx 0

/-- `line.slice(openParenIdx + 1, closeParenIdx)` (line 70). -/
def argsOf (l : List Char) (openIdx closeIdx : Nat) : List Char :=
  (l.drop (openIdx + 1)).take (closeIdx - (openIdx + 1))

/-- `/^\s/.test(args)` (line 76). -/
def hasLeadingWS (args : List Char) : Bool :=
  match args.head? with
  | some c => isSpaceJS c
  | none => false

/-- `/\s$/.test(args)` (line 77). -/
def hasTrailingWS (args : List Char) : Bool :=
  match args.getLast? with
  | some c => isSpaceJS c
  | none => false

def msgBoth : String := "Function arguments must have space after '(' and before ')'"
def msgBefore : String := "Expected space before ')'"
def msgAfter : String := "Expected space after '('"

/-- The body of lines 70–98 for one resolved call `(s, openIdx, closeIdx)`:
the diagnostic it pushes, if any. -/
def diagFor (lineNum : Nat) (l : List Char) : Nat × Nat × Nat → Option Diagnostic
  | (s, openIdx, closeIdx) =>
    let args := argsOf l openIdx closeIdx
    if args.all isSpaceJS then none
    else
      let hasAfter := hasLeadingWS args
      let hasBefore := hasTrailingWS args
      if !hasAfter || !hasBefore then
        let message :=
          if hasAfter && !hasBefore then msgBefore
          else if !hasAfter && hasBefore then msgAfter
          else msgBoth
        some { severity := .warning,
               range := ⟨⟨lineNum, s⟩, ⟨lineNum, closeIdx + 1⟩⟩,
               message := message,
               source := "afl-lsp" }
      else none

/-- The `while ((match = callStartPattern.exec(line)) !== null)` loop of
lines 42–99.  Each iteration re-locates the `(` with `indexOf` from the
identifier end, depth-matches the close paren (`continue` when either
fails), and pushes at most one diagnostic; scanning resumes at the
character after the matched `(` (the regex `lastIndex`).  Structural fuel
recursion; the wrapper passes enough fuel (the loop advances at least two
characters per iteration). -/
def scanLineF (lineNum : Nat) (l : List Char) : Nat → Nat → List Diagnostic
  | 0, _ => []
  | fuel + 1, pos =>
      match findNextCall l pos with
      | none => []
      | some (s, j, k) =>
          let rest := scanLineF lineNum l fuel (k + 1)
          match strIndexOf l '(' j with
          | none => rest
          | some openIdx =>
              match findClose l openIdx with
              | none => rest
              | some closeIdx =>
                  match diagFor lineNum l (s, openIdx, closeIdx) with
                  | some d => d :: rest
                  | none => rest

def scanLine (lineNum : Nat) (l : List Char) (pos : Nat) : List Diagnostic :=
  scanLineF lineNum l (l.length - pos) pos

theorem scanLineF_irrel (lineNum : Nat) (l : List Char) :
    ∀ fuel1 fuel2 pos, l.length - pos ≤ fuel1 → l.length - pos ≤ fuel2 →
    scanLineF lineNum l fuel1 pos = scanLineF lineNum l fuel2 pos := by
  intro fuel1
  induction fuel1 with
  | zero =>
      intro fuel2 pos h1 h2
      have hf : findNextCall l pos = none := by
        rw [findNextCall_unfold, if_neg (by omega)]
      cases fuel2 with
      | zero => rfl
      | succ fuel2 => simp only [scanLineF, hf]
  | succ fuel1 ih =>
      intro fuel2 pos h1 h2
      cases fuel2 with
      | zero =>
          have hf : findNextCall l pos = none := by
            rw [findNextCall_unfold, if_neg (by omega)]
          simp only [scanLineF, hf]
      | succ fuel2 =>
          simp only [scanLineF]
          cases hf : findNextCall l pos with
          | none => simp only [hf]
          | some sjk =>
              obtain ⟨s, j, k⟩ := sjk
              have hb := findNextCall_bounds l pos s j k hf
              have heq := ih fuel2 (k + 1) (by omega) (by omega)
              simp only [hf, heq]

/-- The comment-block state transition of lines 22–28: seeing `/*` sets the
flag; seeing `*/` while the flag is set clears it again (both tests run on
the same line, in this order). -/
def transLine (l : List Char) (inBlock : Bool) : Bool :=
  let b1 := if containsSub slashStar l then true else inBlock
  if b1 && containsSub starSlash l then false else b1

/-- The loop body of lines 18–100 for one line: update the comment-block
state, skip comment/quote lines, otherwise strip the trailing comment and
string literals and scan.  Returns the state passed to the next line and
the diagnostics contributed by this line. -/
def lintLine (lineNum : Nat) (originalLine : List Char) (inBlock : Bool) :
    Bool × List Diagnostic :=
  let b2 := transLine originalLine inBlock
  if isLineComment originalLine || originalLine.contains '"' || b2 then
    (b2, [])
  else
    let lineWithoutComments := removeLineComment originalLine
    let line := stripStrings lineWithoutComments
    (b2, scanLine lineNum line 0)

/-- Fold of `lintLine` over the lines, threading the comment-block state and
numbering lines from `base`. -/
def checkLines : List (List Char) → Nat → Bool → List Diagnostic
  | [], _, _ => []
  | l :: rest, base, inBlock =>
      let r := lintLine base l inBlock
      r.2 ++ checkLines rest (base + 1) r.1

/-- `checkFunctionSpaces(text, _uri)` (`rules/functions.ts` lines 6–103). -/
def checkFunctionSpaces (text : List Char) (_uri : String) : List Diagnostic :=
  checkLines (splitLines text) 0 false

/-! ## The calls detected by one scan of a line

`detectedCalls` replays the `while` loop of `scanLine` but records the
resolved calls `(matchIndex, openParenIdx, closeParenIdx)` instead of the
diagnostics; `scanLine_eq_calls` ties the two together. -/

def detectedCallsF (l : List Char) : Nat → Nat → List (Nat × Nat × Nat)
  | 0, _ => []
  | fuel + 1, pos =>
      match findNextCall l pos with
      | none => []
      | some (s, j, k) =>
          let rest := detectedCallsF l fuel (k + 1)
          match strIndexOf l '(' j with
          | none => rest
          | some openIdx =>
              match findClose l openIdx with
              | none => rest
              | some closeIdx => (s, openIdx, closeIdx) :: rest

def detectedCalls (l : List Char) (pos : Nat) : List (Nat × Nat × Nat) :=
  detectedCallsF l (l.length - pos) pos

theorem detectedCallsF_irrel (l : List Char) :
    ∀ fuel1 fuel2 pos, l.length - pos ≤ fuel1 → l.length - pos ≤ fuel2 →
    detectedCallsF l fuel1 pos = detectedCallsF l fuel2 pos := by
  intro fuel1
  induction fuel1 with
  | zero =>
      intro fuel2 pos h1 h2
      have hf : findNextCall l pos = none := by
        rw [findNextCall_unfold, if_neg (by omega)]
      cases fuel2 with
      | zero => rfl
      | succ fuel2 => simp only [detectedCallsF, hf]
  | succ fuel1 ih =>
      intro fuel2 pos h1 h2
      cases fuel2 with
      | zero =>
          have hf : findNextCall l pos = none := by
            rw [findNextCall_unfold, if_neg (by omega)]
          simp only [detectedCallsF, hf]
      | succ fuel2 =>
          simp only [detectedCallsF]
          cases hf : findNextCall l pos with
          | none => simp only [hf]
          | some sjk =>
              obtain ⟨s, j, k⟩ := sjk
              have hb := findNextCall_bounds l pos s j k hf
              have heq := ih fuel2 (k + 1) (by omega) (by omega)
              simp only [hf, heq]

theorem scanLine_step_none (lineNum : Nat) (l : List Char) (pos : Nat)
    (h : findNextCall l pos = none) : scanLine lineNum l pos = [] := by
  unfold scanLine
  cases hfuel : l.length - pos with
  | zero => rfl
  | succ fuel => simp only [scanLineF, h]

theorem scanLine_step_some (lineNum : Nat) (l : List Char) (pos s j k : Nat)
    (h : findNextCall l pos = some (s, j, k)) :
    scanLine lineNum l pos =
      (match strIndexOf l '(' j with
       | none => scanLine lineNum l (k + 1)
       | some openIdx =>
           match findClose l openIdx with
           | none => scanLine lineNum l (k + 1)
           | some closeIdx =>
               match diagFor lineNum l (s, openIdx, closeIdx) with
               | some d => d :: scanLine lineNum l (k + 1)
               | none => scanLine lineNum l (k + 1)) := by
  have hb := findNextCall_bounds l pos s j k h
  unfold scanLine
  have h2 : l.length - pos = (l.length - pos - 1) + 1 := by omega
  rw [h2]
  simp only [scanLineF, h]
  have hirr : scanLineF lineNum l (l.length - pos - 1) (k + 1) =
      scanLineF lineNum l (l.length - (k + 1)) (k + 1) :=
    scanLineF_irrel lineNum l _ _ _ (by omega) (by omega)
  rw [hirr]

theorem detectedCalls_step_none (l : List Char) (pos : Nat)
    (h : findNextCall l pos = none) : detectedCalls l pos = [] := by
  unfold detectedCalls
  cases hfuel : l.length - pos with
  | zero => rfl
  | succ fuel => simp only [detectedCallsF, h]

theorem detectedCalls_step_some (l : List Char) (pos s j k : Nat)
    (h : findNextCall l pos = some (s, j, k)) :
    detectedCalls l pos =
      (match strIndexOf l '(' j with
       | none => detectedCalls l (k + 1)
       | some openIdx =>
           match findClose l openIdx with
           | none => detectedCalls l (k + 1)
           | some closeIdx => (s, openIdx, closeIdx) :: detectedCalls l (k + 1)) := by
  have hb := findNextCall_bounds l pos s j k h
  unfold detectedCalls
  have h2 : l.length - pos = (l.length - pos - 1) + 1 := by omega
  rw [h2]
  simp only [detectedCallsF, h]
  have hirr : detectedCallsF l (l.length - pos - 1) (k + 1) =
      detectedCallsF l (l.length - (k + 1)) (k + 1) :=
    detectedCallsF_irrel l _ _ _ (by omega) (by omega)
  rw [hirr]

theorem scanLine_eq_calls (lineNum : Nat) (l : List Char) (pos : Nat) :
    scanLine lineNum l pos = (detectedCalls l pos).filterMap (diagFor lineNum l) := by
  have H : ∀ (fuel pos : Nat), l.length - pos ≤ fuel →
      scanLine lineNum l pos = (detectedCalls l pos).filterMap (diagFor lineNum l) := by
    intro fuel
    induction fuel with
    | zero =>
        intro pos hle
        cases hf : findNextCall l pos with
        | none => rw [scanLine_step_none _ _ _ hf, detectedCalls_step_none _ _ hf]; rfl
        | some sjk =>
            obtain ⟨s, j, k⟩ := sjk
            have := findNextCall_bounds l pos s j k hf
            exfalso; omega
    | succ fuel ih =>
        intro pos hle
        cases hf : findNextCall l pos with
        | none => rw [scanLine_step_none _ _ _ hf, detectedCalls_step_none _ _ hf]; rfl
        | some sjk =>
            obtain ⟨s, j, k⟩ := sjk
            have hb := findNextCall_bounds l pos s j k hf
            have hrec := ih (k + 1) (by omega)
            rw [scanLine_step_some _ _ _ _ _ _ hf, detectedCalls_step_some _ _ _ _ _ hf]
            cases ho : strIndexOf l '(' j with
            | none => simp only [ho]; exact hrec
            | some openIdx =>
                cases hc : findClose l openIdx with
                | none => simp only [ho, hc]; exact hrec
                | some closeIdx =>
                    simp only [ho, hc, List.filterMap_cons]
                    cases hd : diagFor lineNum l (s, openIdx, closeIdx) with
                    | none => simp only [hd]; exact hrec
                    | some d => simp only [hd, hrec]
  exact H (l.length - pos) pos (le_refl _)

/-- Every recorded call starts at or after the scan position. -/
theorem detectedCalls_lb (l : List Char) (pos : Nat) :
    ∀ c ∈ detectedCalls l pos, pos ≤ c.1 := by
  have H : ∀ (fuel pos : Nat), l.length - pos ≤ fuel →
      ∀ c ∈ detectedCalls l pos, pos ≤ c.1 := by
    intro fuel
    induction fuel with
    | zero =>
        intro pos hle c hc
        cases hf : findNextCall l pos with
        | none => rw [detectedCalls_step_none _ _ hf] at hc; cases hc
        | some sjk =>
            obtain ⟨s, j, k⟩ := sjk
            have := findNextCall_bounds l pos s j k hf
            exfalso; omega
    | succ fuel ih =>
        intro pos hle c hc
        cases hf : findNextCall l pos with
        | none => rw [detectedCalls_step_none _ _ hf] at hc; cases hc
        | some sjk =>
            obtain ⟨s, j, k⟩ := sjk
            have hb := findNextCall_bounds l pos s j k hf
            rw [detectedCalls_step_some _ _ _ _ _ hf] at hc
            have hrest : ∀ c ∈ detectedCalls l (k + 1), pos ≤ c.1 := by
              intro c hcr
              have := ih (k + 1) (by omega) c hcr
              omega
            cases ho : strIndexOf l '(' j with
            | none => simp only [ho] at hc; exact hrest c hc
            | some openIdx =>
                simp only [ho] at hc
                cases hcl : findClose l openIdx with
                | none => simp only [hcl] at hc; exact hrest c hc
                | some closeIdx =>
                    simp only [hcl, List.mem_cons] at hc
                    cases hc with
                    | inl he => subst he; exact hb.1
                    | inr hr => exact hrest c hr
  exact H (l.length - pos) pos (le_refl _)

/-- Distinct recorded calls have strictly increasing match indices. -/
theorem detectedCalls_sorted (l : List Char) (pos : Nat) :
    (detectedCalls l pos).Pairwise (fun a b => a.1 < b.1) := by
  have H : ∀ (fuel pos : Nat), l.length - pos ≤ fuel →
      (detectedCalls l pos).Pairwise (fun a b => a.1 < b.1) := by
    intro fuel
    induction fuel with
    | zero =>
        intro pos hle
        cases hf : findNextCall l pos with
        | none => rw [detectedCalls_step_none _ _ hf]; exact List.Pairwise.nil
        | some sjk =>
            obtain ⟨s, j, k⟩ := sjk
            have := findNextCall_bounds l pos s j k hf
            exfalso; omega
    | succ fuel ih =>
        intro pos hle
        cases hf : findNextCall l pos with
        | none => rw [detectedCalls_step_none _ _ hf]; exact List.Pairwise.nil
        | some sjk =>
            obtain ⟨s, j, k⟩ := sjk
            have hb := findNextCall_bounds l pos s j k hf
            have hrec := ih (k + 1) (by omega)
            rw [detectedCalls_step_some _ _ _ _ _ hf]
            cases ho : strIndexOf l '(' j with
            | none => simp only [ho]; exact hrec
            | some openIdx =>
                simp only [ho]
                cases hcl : findClose l openIdx with
                | none => simp only [hcl]; exact hrec
                | some closeIdx =>
                    simp only [hcl]
                    refine List.Pairwise.cons ?_ hrec
                    intro c hc
                    have := detectedCalls_lb l (k + 1) c hc
                    simp only []
                    omega
  exact H (l.length - pos) pos (le_refl _)

/-- Each recorded call was resolved by a successful regex match at its own
index, the `indexOf` re-location and the depth matcher. -/
theorem detectedCalls_sound (l : List Char) (pos : Nat) :
    ∀ s o cl, (s, o, cl) ∈ detectedCalls l pos →
    ∃ j k, matchCallAt l s = some (j, k) ∧ strIndexOf l '(' j = some o ∧
           findClose l o = some cl := by
  have Hm : ∀ (fuel pos s j k : Nat),
      findNextCallF l fuel pos = some (s, j, k) → matchCallAt l s = some (j, k) := by
    intro fuel
    induction fuel with
    | zero => intro pos s j k hf; cases hf
    | succ fuel ih =>
        intro pos s j k hf
        simp only [findNextCallF] at hf
        split at hf
        · split at hf
          · rename_i hm
            cases hf
            exact hm
          · exact ih (pos + 1) s j k hf
        · cases hf
  have H : ∀ (fuel pos : Nat), l.length - pos ≤ fuel →
      ∀ s o cl, (s, o, cl) ∈ detectedCalls l pos →
      ∃ j k, matchCallAt l s = some (j, k) ∧ strIndexOf l '(' j = some o ∧
             findClose l o = some cl := by
    intro fuel
    induction fuel with
    | zero =>
        intro pos hle s o cl hc
        cases hf : findNextCall l pos with
        | none => rw [detectedCalls_step_none _ _ hf] at hc; cases hc
        | some sjk =>
            obtain ⟨s', j, k⟩ := sjk
            have := findNextCall_bounds l pos s' j k hf
            exfalso; omega
    | succ fuel ih =>
        intro pos hle s o cl hc
        cases hf : findNextCall l pos with
        | none => rw [detectedCalls_step_none _ _ hf] at hc; cases hc
        | some sjk =>
            obtain ⟨s', j, k⟩ := sjk
            have hb := findNextCall_bounds l pos s' j k hf
            rw [detectedCalls_step_some _ _ _ _ _ hf] at hc
            cases ho : strIndexOf l '(' j with
            | none =>
                simp only [ho] at hc
                exact ih (k + 1) (by omega) s o cl hc
            | some openIdx =>
                simp only [ho] at hc
                cases hcl : findClose l openIdx with
                | none =>
                    simp only [hcl] at hc
                    exact ih (k + 1) (by omega) s o cl hc
                | some closeIdx =>
                    simp only [hcl, List.mem_cons] at hc
                    cases hc with
                    | inl he =>
                        simp only [Prod.mk.injEq] at he
                        obtain ⟨h1, h2, h3⟩ := he
                        subst h1
                        subst h2
                        subst h3
                        exact ⟨j, k, Hm (l.length - pos) pos s j k hf, ho, hcl⟩
                    | inr hr => exact ih (k + 1) (by omega) s o cl hr
  exact H (l.length - pos) pos (le_refl _)

/-! ## Shape of the emitted diagnostics -/

theorem diagFor_some_shape (lineNum : Nat) (l : List Char) (s o cl : Nat)
    (d : Diagnostic) (h : diagFor lineNum l (s, o, cl) = some d) :
    d.severity = .warning ∧ d.range = ⟨⟨lineNum, s⟩, ⟨lineNum, cl + 1⟩⟩ ∧
    d.source = "afl-lsp" := by
  simp only [diagFor] at h
  split at h
  · cases h
  · split at h
    · cases h
      exact ⟨rfl, rfl, rfl⟩
    · cases h

/-- Leading whitespace present, trailing missing: the `"Expected space
before ')'"` diagnostic. -/
theorem diagFor_only_trailing_missing (lineNum : Nat) (l : List Char) (s o cl : Nat)
    (hA : hasLeadingWS (argsOf l o cl) = true)
    (hB : hasTrailingWS (argsOf l o cl) = false) :
    diagFor lineNum l (s, o, cl) =
      some ⟨.warning, ⟨⟨lineNum, s⟩, ⟨lineNum, cl + 1⟩⟩, msgBefore, "afl-lsp"⟩ := by
  have hblank : (argsOf l o cl).all isSpaceJS = false := by
    revert hA hB
    generalize argsOf l o cl = args
    intro hA hB
    cases args with
    | nil => simp [hasLeadingWS] at hA
    | cons a as =>
        by_contra hcon
        rw [Bool.not_eq_false] at hcon
        have hlast := List.all_eq_true.mp hcon _
          (List.getLast_mem (l := a :: as) (by simp))
        simp only [hasTrailingWS,
          List.getLast?_eq_getLast_of_ne_nil (l := a :: as) (by simp)] at hB
        rw [hlast] at hB
        cases hB
  simp only [diagFor, hblank, hA, hB]
  rfl

/-- Trailing whitespace present, leading missing: `"Expected space after '('"`. -/
theorem diagFor_only_leading_missing (lineNum : Nat) (l : List Char) (s o cl : Nat)
    (hA : hasLeadingWS (argsOf l o cl) = false)
    (hB : hasTrailingWS (argsOf l o cl) = true) :
    diagFor lineNum l (s, o, cl) =
      some ⟨.warning, ⟨⟨lineNum, s⟩, ⟨lineNum, cl + 1⟩⟩, msgAfter, "afl-lsp"⟩ := by
  have hblank : (argsOf l o cl).all isSpaceJS = false := by
    revert hA hB
    generalize argsOf l o cl = args
    intro hA hB
    cases args with
    | nil => simp [hasTrailingWS] at hB
    | cons a as =>
        simp only [hasLeadingWS, List.head?_cons] at hA
        simp [List.all_cons, hA]
  simp only [diagFor, hblank, hA, hB]
  rfl

/-- Both sides missing: the combined message. -/
theorem diagFor_both_missing (lineNum : Nat) (l : List Char) (s o cl : Nat)
    (hblank : (argsOf l o cl).all isSpaceJS = false)
    (hA : hasLeadingWS (argsOf l o cl) = false)
    (hB : hasTrailingWS (argsOf l o cl) = false) :
    diagFor lineNum l (s, o, cl) =
      some ⟨.warning, ⟨⟨lineNum, s⟩, ⟨lineNum, cl + 1⟩⟩, msgBoth, "afl-lsp"⟩ := by
  simp only [diagFor, hblank, hA, hB]
  rfl

/-- Blank or empty argument substring: no diagnostic (lines 71–74). -/
theorem diagFor_blank (lineNum : Nat) (l : List Char) (s o cl : Nat)
    (hblank : (argsOf l o cl).all isSpaceJS = true) :
    diagFor lineNum l (s, o, cl) = none := by
  simp only [diagFor, hblank]
  rfl

/-! ## Per-call filtering of a scan's diagnostics

Calls are identified by their match index (strictly increasing along the
scan), so filtering the diagnostics by start character isolates the at
most one diagnostic of one call. -/

theorem filter_start_gt_nil (lineNum : Nat) (l : List Char)
    (rest : List (Nat × Nat × Nat)) (s : Nat)
    (hgt : ∀ c' ∈ rest, s < c'.1) :
    (rest.filterMap (diagFor lineNum l)).filter
      (fun x => decide (x.range.start.character = s)) = [] := by
  rw [List.filter_eq_nil]
  intro x hx
  obtain ⟨c', hc', hdc⟩ := List.mem_filterMap.mp hx
  obtain ⟨s', o', cl'⟩ := c'
  have hsh := diagFor_some_shape lineNum l s' o' cl' x hdc
  have hlt := hgt _ hc'
  simp only [hsh.2.1]
  simp only [decide_eq_true_eq]
  omega

theorem filter_start_singleton (lineNum : Nat) (l : List Char)
    (calls : List (Nat × Nat × Nat))
    (hpw : calls.Pairwise (fun a b => a.1 < b.1)) :
    ∀ c ∈ calls, ∀ d, diagFor lineNum l c = some d →
    (calls.filterMap (diagFor lineNum l)).filter
      (fun x => decide (x.range.start.character = c.1)) = [d] := by
  induction calls with
  | nil => intro c hc; cases hc
  | cons a rest ih =>
      intro c hc d hd
      obtain ⟨ha, hpw'⟩ := List.pairwise_cons.mp hpw
      rcases List.mem_cons.mp hc with he | hm
      · subst he
        simp only [List.filterMap_cons, hd, List.filter_cons]
        obtain ⟨s, o, cl⟩ := c
        have hsh := diagFor_some_shape lineNum l s o cl d hd
        simp only [hsh.2.1]
        rw [if_pos (by simp)]
        rw [filter_start_gt_nil lineNum l rest s ha]
      · have hlt : a.1 < c.1 := ha c hm
        simp only [List.filterMap_cons]
        cases hda : diagFor lineNum l a with
        | none => exact ih hpw' c hm d hd
        | some da =>
            obtain ⟨sa, oa, cla⟩ := a
            have hsha := diagFor_some_shape lineNum l sa oa cla da hda
            rw [List.filter_cons]
            rw [if_neg (by simp only [hsha.2.1]; simp; omega)]
            exact ih hpw' c hm d hd

theorem filter_start_none (lineNum : Nat) (l : List Char)
    (calls : List (Nat × Nat × Nat))
    (hpw : calls.Pairwise (fun a b => a.1 < b.1)) :
    ∀ c ∈ calls, diagFor lineNum l c = none →
    (calls.filterMap (diagFor lineNum l)).filter
      (fun x => decide (x.range.start.character = c.1)) = [] := by
  induction calls with
  | nil => intro c hc; cases hc
  | cons a rest ih =>
      intro c hc hd
      obtain ⟨ha, hpw'⟩ := List.pairwise_cons.mp hpw
      rcases List.mem_cons.mp hc with he | hm
      · subst he
        simp only [List.filterMap_cons, hd]
        exact filter_start_gt_nil lineNum l rest c.1 ha
      · have hlt : a.1 < c.1 := ha c hm
        simp only [List.filterMap_cons]
        cases hda : diagFor lineNum l a with
        | none => exact ih hpw' c hm hd
        | some da =>
            obtain ⟨sa, oa, cla⟩ := a
            have hsha := diagFor_some_shape lineNum l sa oa cla da hda
            rw [List.filter_cons]
            rw [if_neg (by simp only [hsha.2.1]; simp; omega)]
            exact ih hpw' c hm hd

/-! ## Per-line and per-document structure -/

theorem lintLine_state (lineNum : Nat) (l : List Char) (b : Bool) :
    (lintLine lineNum l b).1 = transLine l b := by
  simp only [lintLine]
  split <;> rfl

theorem lintLine_skip (lineNum : Nat) (l : List Char) (b : Bool)
    (h : isLineComment l = true ∨ l.contains '"' = true ∨ transLine l b = true) :
    (lintLine lineNum l b).2 = [] := by
  simp only [lintLine]
  rw [if_pos]
  rcases h with h | h | h
  · simp [h]
  · have h' : '"' ∈ l := by simpa using h
    simp [h']
  · simp [h]

theorem lintLine_not_skipped (lineNum : Nat) (l : List Char) (b : Bool)
    (h1 : isLineComment l = false) (h2 : l.contains '"' = false)
    (h3 : transLine l b = false) :
    (lintLine lineNum l b).2 =
      scanLine lineNum (stripStrings (removeLineComment l)) 0 := by
  have h2' : '"' ∉ l := by simpa using h2
  simp only [lintLine]
  rw [if_neg (by simp [h1, h2', h3])]

theorem scanLine_start_line (lineNum : Nat) (l : List Char) (pos : Nat)
    (d : Diagnostic) (h : d ∈ scanLine lineNum l pos) :
    d.range.start.line = lineNum := by
  rw [scanLine_eq_calls] at h
  obtain ⟨c, hc, hd⟩ := List.mem_filterMap.mp h
  obtain ⟨s, o, cl⟩ := c
  have hsh := diagFor_some_shape lineNum l s o cl d hd
  rw [hsh.2.1]

theorem lintLine_start_line (lineNum : Nat) (l : List Char) (b : Bool)
    (d : Diagnostic) (h : d ∈ (lintLine lineNum l b).2) :
    d.range.start.line = lineNum := by
  simp only [lintLine] at h
  split at h
  · cases h
  · exact scanLine_start_line lineNum _ 0 d h

theorem checkLines_line_ge (ls : List (List Char)) :
    ∀ (base : Nat) (b : Bool) (d : Diagnostic),
    d ∈ checkLines ls base b → base ≤ d.range.start.line := by
  induction ls with
  | nil => intro base b d h; cases h
  | cons l rest ih =>
      intro base b d h
      simp only [checkLines, List.mem_append] at h
      cases h with
      | inl hl => exact le_of_eq (lintLine_start_line base l b d hl).symm
      | inr hr => exact Nat.le_trans (Nat.le_succ base) (ih (base + 1) _ d hr)

/-- The comment-block state with which line `k` is processed: the fold of
the per-line transition over the lines before it. -/
def stateAt (ls : List (List Char)) (b : Bool) (k : Nat) : Bool :=
  (ls.take k).foldl (fun st line => transLine line st) b

theorem checkLines_no_diag_at (ls : List (List Char)) :
    ∀ (base : Nat) (b : Bool) (k : Nat) (hk : k < ls.length),
    (lintLine (base + k) (ls.get ⟨k, hk⟩) (stateAt ls b k)).2 = [] →
    ∀ d ∈ checkLines ls base b, d.range.start.line ≠ base + k := by
  induction ls with
  | nil => intro base b k hk; cases hk
  | cons l rest ih =>
      intro base b k hk hskip d hd
      simp only [checkLines, List.mem_append] at hd
      cases k with
      | zero =>
          cases hd with
          | inl hl =>
              rw [Nat.add_zero] at hskip ⊢
              have : (lintLine base l b).2 = [] := hskip
              rw [this] at hl
              cases hl
          | inr hr =>
              have := checkLines_line_ge rest (base + 1) _ d hr
              omega
      | succ k =>
          cases hd with
          | inl hl =>
              have := lintLine_start_line base l b d hl
              omega
          | inr hr =>
              have hst : stateAt (l :: rest) b (k + 1) =
                  stateAt rest (transLine l b) k := rfl
              have hrec := ih (base + 1) (transLine l b) k
                (Nat.lt_of_succ_lt_succ hk)
              rw [lintLine_state] at hr
              have := hrec (by
                  rw [show (base + 1 + k) = base + (k + 1) by omega]
                  rw [← hst]
                  exact hskip) d hr
              omega

/-- C10 — a line containing both block-comment markers always leaves the
engine outside a comment block, whatever the incoming state and the order
of the markers on the line: the code first sets the flag on sight of `/*`
and then clears it on sight of `*/`, so the clear always wins. -/
theorem checkFunctionSpaces_both_markers_state_outside
    (lineNum : Nat) (l : List Char) (b : Bool)
    (h1 : containsSub slashStar l = true) (h2 : containsSub starSlash l = true) :
    (lintLine lineNum l b).1 = false := by
  rw [lintLine_state]
  simp [transLine, h1, h2]

/-- Witness for C10: the line `*/ f(a /*` (close marker before open marker)
processed while inside a comment block leaves the engine outside, and the
next line is linted: the two-line document yields the inner diagnostic. -/
theorem checkFunctionSpaces_both_markers_state_outside_witness :
    containsSub slashStar ('*' :: '/' :: ' ' :: 'f' :: '(' :: 'a' :: ' ' :: '/' :: '*' :: []) = true ∧
    containsSub starSlash ('*' :: '/' :: ' ' :: 'f' :: '(' :: 'a' :: ' ' :: '/' :: '*' :: []) = true ∧
    (lintLine 0 ('*' :: '/' :: ' ' :: 'f' :: '(' :: 'a' :: ' ' :: '/' :: '*' :: []) true).1 = false :=
  ⟨by decide, by decide,
   checkFunctionSpaces_both_markers_state_outside 0 _ true (by decide) (by decide)⟩

/-- C6 — a line the engine skips contributes no diagnostic: for any
document, if line `n` is a line comment, or contains a double quote, or the
comment-block state after its own marker transitions is "inside" (a line
lying inside a block comment), then no diagnostic of the whole run is
located on line `n`, regardless of any apparent spacing violations there. -/
theorem checkFunctionSpaces_skipped_line_no_diagnostics
    (text : List Char) (uri : String) (n : Nat)
    (hn : n < (splitLines text).length)
    (hskip : isLineComment ((splitLines text).get ⟨n, hn⟩) = true ∨
             ((splitLines text).get ⟨n, hn⟩).contains '"' = true ∨
             transLine ((splitLines text).get ⟨n, hn⟩)
               (stateAt (splitLines text) false n) = true) :
    ∀ d ∈ checkFunctionSpaces text uri, d.range.start.line ≠ n := by
  intro d hd
  have hskip' : (lintLine (0 + n) ((splitLines text).get ⟨n, hn⟩)
      (stateAt (splitLines text) false n)).2 = [] := by
    apply lintLine_skip
    rcases hskip with h | h | h
    · exact Or.inl h
    · exact Or.inr (Or.inl h)
    · exact Or.inr (Or.inr h)
  have := checkLines_no_diag_at (splitLines text) 0 false n hn hskip' d hd
  simpa using this

/-- C2 — for every call the scan detects whose argument substring is not
empty/all-whitespace, exactly one diagnostic is located at that call's
start character, with severity Warning, range from the identifier start
through the closing parenthesis inclusive (exclusive end `closeIdx + 1`)
on that line, and the message selected by which side of the argument
whitespace is missing: leading-present/trailing-missing gives
`"Expected space before ')'"`, leading-missing/trailing-present gives
`"Expected space after '('"`, and both-missing names both sides. -/
theorem checkFunctionSpaces_spacing_messages
    (lineNum : Nat) (l : List Char) (s o cl : Nat)
    (hmem : (s, o, cl) ∈ detectedCalls l 0)
    (hblank : (argsOf l o cl).all isSpaceJS = false) :
    (hasLeadingWS (argsOf l o cl) = true → hasTrailingWS (argsOf l o cl) = false →
      (scanLine lineNum l 0).filter (fun x => decide (x.range.start.character = s)) =
        [⟨.warning, ⟨⟨lineNum, s⟩, ⟨lineNum, cl + 1⟩⟩, msgBefore, "afl-lsp"⟩]) ∧
    (hasLeadingWS (argsOf l o cl) = false → hasTrailingWS (argsOf l o cl) = true →
      (scanLine lineNum l 0).filter (fun x => decide (x.range.start.character = s)) =
        [⟨.warning, ⟨⟨lineNum, s⟩, ⟨lineNum, cl + 1⟩⟩, msgAfter, "afl-lsp"⟩]) ∧
    (hasLeadingWS (argsOf l o cl) = false → hasTrailingWS (argsOf l o cl) = false →
      (scanLine lineNum l 0).filter (fun x => decide (x.range.start.character = s)) =
        [⟨.warning, ⟨⟨lineNum, s⟩, ⟨lineNum, cl + 1⟩⟩, msgBoth, "afl-lsp"⟩]) := by
  have hpw := detectedCalls_sorted l 0
  refine ⟨?_, ?_, ?_⟩ <;> intro hA hB <;> rw [scanLine_eq_calls]
  · exact filter_start_singleton lineNum l _ hpw (s, o, cl) hmem _
      (diagFor_only_trailing_missing lineNum l s o cl hA hB)
  · exact filter_start_singleton lineNum l _ hpw (s, o, cl) hmem _
      (diagFor_only_leading_missing lineNum l s o cl hA hB)
  · exact filter_start_singleton lineNum l _ hpw (s, o, cl) hmem _
      (diagFor_both_missing lineNum l s o cl hblank hA hB)

/-- Witness for C2: on the line `f( a)` the single call `(0, 1, 4)` has
args `" a"` (leading space, no trailing space) and yields exactly the
`"Expected space before ')'"` warning spanning characters 0–5. -/
theorem checkFunctionSpaces_spacing_messages_witness :
    ((0, 1, 4) ∈ detectedCalls ('f' :: '(' :: ' ' :: 'a' :: ')' :: []) 0) ∧
    (argsOf ('f' :: '(' :: ' ' :: 'a' :: ')' :: []) 1 4).all isSpaceJS = false ∧
    (scanLine 0 ('f' :: '(' :: ' ' :: 'a' :: ')' :: []) 0).filter
      (fun x => decide (x.range.start.character = 0)) =
      [⟨.warning, ⟨⟨0, 0⟩, ⟨0, 5⟩⟩, msgBefore, "afl-lsp"⟩] :=
  ⟨by decide, by decide,
   (checkFunctionSpaces_spacing_messages 0 _ 0 1 4 (by decide) (by decide)).1
     (by decide) (by decide)⟩

/-- C5 — a detected call whose argument substring is empty or
all-whitespace yields no diagnostic (none at its start character), and a
nested call is checked independently of its enclosing call: on
`f( f2(a) )` the outer call is clean and the inner `f2(a)` alone yields
the single diagnostic of the document. -/
theorem checkFunctionSpaces_blank_args_and_nested
    (lineNum : Nat) (l : List Char) (s o cl : Nat)
    (hmem : (s, o, cl) ∈ detectedCalls l 0)
    (hblank : (argsOf l o cl).all isSpaceJS = true) :
    diagFor lineNum l (s, o, cl) = none ∧
    (scanLine lineNum l 0).filter (fun x => decide (x.range.start.character = s)) = [] ∧
    checkFunctionSpaces
        ('f' :: '(' :: ' ' :: 'f' :: '2' :: '(' :: 'a' :: ')' :: ' ' :: ')' :: []) "" =
      [⟨.warning, ⟨⟨0, 3⟩, ⟨0, 8⟩⟩, msgBoth, "afl-lsp"⟩] := by
  have hd := diagFor_blank lineNum l s o cl hblank
  refine ⟨hd, ?_, by decide⟩
  rw [scanLine_eq_calls]
  exact filter_start_none lineNum l _ (detectedCalls_sorted l 0) (s, o, cl) hmem hd

/-- Witness for C5: the zero-argument call `f()` is exempt — its call
`(0, 1, 2)` produces no diagnostic. -/
theorem checkFunctionSpaces_blank_args_and_nested_witness :
    ((0, 1, 2) ∈ detectedCalls ('f' :: '(' :: ')' :: []) 0) ∧
    diagFor 0 ('f' :: '(' :: ')' :: []) (0, 1, 2) = none ∧
    (scanLine 0 ('f' :: '(' :: ')' :: []) 0).filter
      (fun x => decide (x.range.start.character = 0)) = [] := by
  have w := checkFunctionSpaces_blank_args_and_nested 0
    ('f' :: '(' :: ')' :: []) 0 1 2 (by decide) (by decide)
  exact ⟨by decide, w.1, w.2.1⟩

/-- Witness for C6: in `/*⏎Filter(x);⏎*/` the middle line sits inside the
block comment; despite its apparent violation it produces nothing, and
indeed the whole document produces no diagnostic on line 1. -/
theorem checkFunctionSpaces_skipped_line_no_diagnostics_witness :
    (transLine ((splitLines ('/' :: '*' :: '\n' :: 'F' :: '(' :: 'x' :: ')' :: '\n' :: '*' :: '/' :: [])).get
        ⟨1, by decide⟩)
      (stateAt (splitLines ('/' :: '*' :: '\n' :: 'F' :: '(' :: 'x' :: ')' :: '\n' :: '*' :: '/' :: [])) false 1) = true) ∧
    (∀ d ∈ checkFunctionSpaces ('/' :: '*' :: '\n' :: 'F' :: '(' :: 'x' :: ')' :: '\n' :: '*' :: '/' :: []) "",
      d.range.start.line ≠ 1) :=
  ⟨by decide,
   checkFunctionSpaces_skipped_line_no_diagnostics _ "" 1 (by decide)
     (Or.inr (Or.inr (by decide)))⟩

/-! ## `getWordAtPosition` (`symbolTable.ts` lines 104–115)

The loop `while ((match = /[A-Za-z_][A-Za-z0-9_]*/g.exec(line)))` visits the
maximal identifier runs left to right; the first run whose closed span
`[start, end]` contains `char` is returned (`end` inclusive). -/

/-- One `exec` step from `lastIndex = pos`: the leftmost identifier run at
or after `pos`, as `(start, end)` with `end` exclusive. -/
def nextIdentRunF (l : List Char) : Nat → Nat → Option (Nat × Nat)
  | 0, _ => none
  | fuel + 1, pos =>
      match l.get? pos with
      | none => none
      | some c =>
          if isIdentStart c then some (pos, scanEnd isWordChar l (pos + 1))
          else nextIdentRunF l fuel (pos + 1)

def nextIdentRun (l : List Char) (pos : Nat) : Option (Nat × Nat) :=
  nextIdentRunF l (l.length - pos) pos

/-- The loop of lines 107–113: return the first run whose inclusive span
contains `char`; resume from the run's end otherwise. -/
def getWordAtPositionF (l : List Char) (char : Nat) : Nat → Nat → Option (List Char)
  | 0, _ => none
  | fuel + 1, pos =>
      match nextIdentRun l pos with
      | none => none
      | some (s, e) =>
          if s ≤ char ∧ char ≤ e then some ((l.drop s).take (e - s))
          else getWordAtPositionF l char fuel e

def getWordAtPosition (l : List Char) (char : Nat) : Option (List Char) :=
  getWordAtPositionF l char l.length 0

/-- All identifier runs of the line, in scan order (the successive `exec`
matches). -/
def identRunsF (l : List Char) : Nat → Nat → List (Nat × Nat)
  | 0, _ => []
  | fuel + 1, pos =>
      match nextIdentRun l pos with
      | none => []
      | some (s, e) => (s, e) :: identRunsF l fuel e

def identRuns (l : List Char) : List (Nat × Nat) :=
  identRunsF l l.length 0

theorem scanEnd_le (p : Char → Bool) (l : List Char) :
    ∀ fuel start, start ≤ l.length → scanEndF p l fuel start ≤ l.length := by
  intro fuel
  induction fuel with
  | zero => intro start h; exact h
  | succ fuel ih =>
      intro start h
      simp only [scanEndF]
      cases hg : l.get? start with
      | none => simp only [hg]; exact h
      | some c =>
          have := (List.get?_eq_some.mp hg).1
          simp only [hg]
          split
          · exact ih (start + 1) (by omega)
          · exact h

theorem scanEnd_stop (p : Char → Bool) (l : List Char) (start : Nat) :
    l.get? (scanEnd p l start) = none ∨
    ∃ c, l.get? (scanEnd p l start) = some c ∧ p c = false := by
  have H : ∀ fuel start, l.length - start ≤ fuel →
      l.get? (scanEndF p l fuel start) = none ∨
      ∃ c, l.get? (scanEndF p l fuel start) = some c ∧ p c = false := by
    intro fuel
    induction fuel with
    | zero =>
        intro start h
        left
        simp only [scanEndF]
        rw [List.get?_eq_none]
        omega
    | succ fuel ih =>
        intro start h
        simp only [scanEndF]
        cases hg : l.get? start with
        | none => left; exact hg
        | some c =>
            have := (List.get?_eq_some.mp hg).1
            simp only [hg]
            by_cases hp : p c = true
            · rw [if_pos hp]
              exact ih (start + 1) (by omega)
            · rw [if_neg hp]
              right
              exact ⟨c, hg, by simpa using hp⟩
  exact H _ start (le_refl _)

theorem identStart_word (c : Char) (h : isIdentStart c = true) : isWordChar c = true := by
  simp only [isIdentStart, Bool.or_eq_true] at h
  simp only [isWordChar, Bool.or_eq_true]
  rcases h with h | h
  · exact Or.inl (Or.inl h)
  · exact Or.inr h

theorem nextIdentRun_spec (l : List Char) (pos s e : Nat)
    (h : nextIdentRun l pos = some (s, e)) :
    pos ≤ s ∧ s < e ∧ e ≤ l.length ∧
    (∃ c, l.get? s = some c ∧ isIdentStart c = true) ∧
    e = scanEnd isWordChar l (s + 1) := by
  have H : ∀ fuel pos, nextIdentRunF l fuel pos = some (s, e) →
      pos ≤ s ∧ s < e ∧ e ≤ l.length ∧
      (∃ c, l.get? s = some c ∧ isIdentStart c = true) ∧
      e = scanEnd isWordChar l (s + 1) := by
    intro fuel
    induction fuel with
    | zero => intro pos hf; cases hf
    | succ fuel ih =>
        intro pos hf
        simp only [nextIdentRunF] at hf
        cases hg : l.get? pos with
        | none => rw [hg] at hf; cases hf
        | some c =>
            simp only [hg] at hf
            by_cases hi : isIdentStart c = true
            · rw [if_pos hi] at hf
              simp only [Option.some.injEq, Prod.mk.injEq] at hf
              obtain ⟨h1, h2⟩ := hf
              subst h1
              subst h2
              have hlt := (List.get?_eq_some.mp hg).1
              have hge := scanEnd_ge isWordChar l (pos + 1)
              exact ⟨le_refl _, by omega,
                scanEnd_le isWordChar l _ (pos + 1) (by omega), ⟨c, hg, hi⟩, rfl⟩
            · rw [if_neg hi] at hf
              have := ih (pos + 1) hf
              exact ⟨by omega, this.2⟩
  exact H _ pos h

/-- Every run starts at or after the scan position, is non-empty, starts
with an identifier-start character and stops at a non-word boundary. -/
theorem identRunsF_spec (l : List Char) :
    ∀ fuel pos, ∀ se ∈ identRunsF l fuel pos,
      pos ≤ se.1 ∧ se.1 < se.2 ∧ se.2 ≤ l.length ∧
      (∃ c, l.get? se.1 = some c ∧ isIdentStart c = true) := by
  intro fuel
  induction fuel with
  | zero => intro pos se h; cases h
  | succ fuel ih =>
      intro pos se h
      simp only [identRunsF] at h
      cases hn : nextIdentRun l pos with
      | none => rw [hn] at h; cases h
      | some se' =>
          rw [hn] at h
          obtain ⟨s, e⟩ := se'
          have hsp := nextIdentRun_spec l pos s e hn
          simp only [List.mem_cons] at h
          cases h with
          | inl he => subst he; exact ⟨hsp.1, hsp.2.1, hsp.2.2.1, hsp.2.2.2.1⟩
          | inr hr =>
              have := ih e se hr
              refine ⟨by omega, this.2⟩

/-- Successive runs are separated: each ends strictly before the next
begins (the character at a run's end fails the word class, so no run can
start there). -/
theorem identRunsF_gap (l : List Char) :
    ∀ fuel pos, (identRunsF l fuel pos).Pairwise (fun a b => a.2 < b.1) := by
  intro fuel
  induction fuel with
  | zero => intro pos; exact List.Pairwise.nil
  | succ fuel ih =>
      intro pos
      simp only [identRunsF]
      cases hn : nextIdentRun l pos with
      | none => exact List.Pairwise.nil
      | some se =>
          obtain ⟨s, e⟩ := se
          have hsp := nextIdentRun_spec l pos s e hn
          refine List.Pairwise.cons ?_ (ih e)
          intro b hb
          have hbs := identRunsF_spec l fuel e b hb
          have hne : b.1 ≠ e := by
            intro hcon
            obtain ⟨c, hgc, hic⟩ := hbs.2.2.2
            rw [hcon] at hgc
            rcases scanEnd_stop isWordChar l (s + 1) with hst | ⟨c2, hgc2, hpc2⟩
            · rw [← hsp.2.2.2.2] at hst
              rw [hst] at hgc
              cases hgc
            · rw [← hsp.2.2.2.2] at hgc2
              rw [hgc2] at hgc
              cases hgc
              rw [identStart_word c hic] at hpc2
              cases hpc2
          have := hbs.1
          simp only []
          omega

/-- The scan loop returns exactly the first run (in scan order) whose
inclusive span contains the offset. -/
theorem getWordAtPositionF_eq_find (l : List Char) (char : Nat) :
    ∀ fuel pos,
    getWordAtPositionF l char fuel pos =
      ((identRunsF l fuel pos).find?
        (fun se => decide (se.1 ≤ char ∧ char ≤ se.2))).map
        (fun se => (l.drop se.1).take (se.2 - se.1)) := by
  intro fuel
  induction fuel with
  | zero => intro pos; rfl
  | succ fuel ih =>
      intro pos
      simp only [getWordAtPositionF, identRunsF]
      cases hn : nextIdentRun l pos with
      | none => simp only [hn]; rfl
      | some se =>
          obtain ⟨s, e⟩ := se
          simp only [hn, List.find?_cons]
          by_cases hc : s ≤ char ∧ char ≤ e
          · rw [if_pos hc]
            have : decide (s ≤ char ∧ char ≤ e) = true := by simp [hc]
            rw [this]
            rfl
          · rw [if_neg hc]
            have : decide (s ≤ char ∧ char ≤ e) = false := by simp [hc]
            rw [this]
            exact ih e

/-- In a gap-separated run list, the first run whose inclusive span
contains `c` is the only one, so `find?` returns exactly it. -/
theorem find_mem_span (char : Nat) :
    ∀ (runs : List (Nat × Nat)), runs.Pairwise (fun a b => a.2 < b.1) →
    ∀ se ∈ runs, se.1 ≤ char → char ≤ se.2 →
    runs.find? (fun se => decide (se.1 ≤ char ∧ char ≤ se.2)) = some se := by
  intro runs
  induction runs with
  | nil => intro _ se h; cases h
  | cons a rest ih =>
      intro hpw se hm h1 h2
      obtain ⟨ha, hpw'⟩ := List.pairwise_cons.mp hpw
      rcases List.mem_cons.mp hm with he | hr
      · subst he
        rw [List.find?_cons]
        have : decide (se.1 ≤ char ∧ char ≤ se.2) = true := by simp [h1, h2]
        rw [this]
      · have hgap : a.2 < se.1 := ha se hr
        rw [List.find?_cons]
        have : decide (a.1 ≤ char ∧ char ≤ a.2) = false := by
          simp only [decide_eq_false_iff_not]
          intro hcon
          omega
        rw [this]
        exact ih hpw' se hr h1 h2

/-- C3 — `getWordAtPosition` round trip: for any identifier run `[s, e)`
of the line, every offset `c` with `s ≤ c ≤ e` (end boundary inclusive)
returns exactly that identifier's text, and any offset contained in no
run's inclusive span (strictly between runs or past the end of the line)
returns none. -/
theorem getWordAtPosition_round_trip (l : List Char) (c s e : Nat) :
    ((s, e) ∈ identRuns l → s ≤ c → c ≤ e →
      getWordAtPosition l c = some ((l.drop s).take (e - s))) ∧
    ((∀ se ∈ identRuns l, c < se.1 ∨ se.2 < c) →
      getWordAtPosition l c = none) := by
  constructor
  · intro hm h1 h2
    unfold getWordAtPosition
    rw [getWordAtPositionF_eq_find]
    rw [find_mem_span c (identRunsF l l.length 0) (identRunsF_gap l l.length 0) (s, e) hm h1 h2]
    rfl
  · intro hall
    unfold getWordAtPosition
    rw [getWordAtPositionF_eq_find]
    have : (identRunsF l l.length 0).find? (fun se => decide (se.1 ≤ c ∧ c ≤ se.2)) = none := by
      rw [List.find?_eq_none]
      intro se hse
      have := hall se hse
      simp only [decide_eq_true_eq]
      intro hcon
      omega
    rw [this]
    rfl

/-- Witness for C3: on the line `foo bar` with runs `[0,3)` and `[4,7)`,
offset 3 (the inclusive end boundary of `foo`) still returns `foo`, and
offset 8 (past end of line) returns none. -/
theorem getWordAtPosition_round_trip_witness :
    ((0, 3) ∈ identRuns ('f' :: 'o' :: 'o' :: ' ' :: 'b' :: 'a' :: 'r' :: [])) ∧
    getWordAtPosition ('f' :: 'o' :: 'o' :: ' ' :: 'b' :: 'a' :: 'r' :: []) 3 =
      some ('f' :: 'o' :: 'o' :: []) ∧
    getWordAtPosition ('f' :: 'o' :: 'o' :: ' ' :: 'b' :: 'a' :: 'r' :: []) 8 = none := by
  refine ⟨by decide, ?_, ?_⟩
  · have := (getWordAtPosition_round_trip
      ('f' :: 'o' :: 'o' :: ' ' :: 'b' :: 'a' :: 'r' :: []) 3 0 3).1
      (by decide) (by decide) (by decide)
    rw [this]
    rfl
  · exact (getWordAtPosition_round_trip
      ('f' :: 'o' :: 'o' :: ' ' :: 'b' :: 'a' :: 'r' :: []) 8 0 0).2 (by decide)

/-! ## `stripStrings` facts (C7) -/

theorem stripAuxF_length : ∀ (fuel : Nat) (l : List Char), l.length ≤ fuel →
    (stripAuxF fuel l).length = l.length := by
  intro fuel
  induction fuel with
  | zero => intro l h; rfl
  | succ fuel ih =>
      intro l h
      simp only [stripAuxF]
      split
      · rfl
      · rename_i rest
        cases hm : matchContent rest with
        | some n =>
            simp only [hm]
            have hb := matchContent_le rest n hm
            rw [List.length_append, List.length_replicate]
            rw [ih (rest.drop n) (by simp at h ⊢; omega)]
            simp only [List.length_drop, List.length_cons]
            omega
        | none =>
            simp only [hm, List.length_cons]
            rw [ih ('"' :: rest) (by simp at h ⊢; omega)]
            simp
      · rename_i c rest hside
        simp only [List.length_cons]
        rw [ih rest (by simp at h; omega)]

theorem stripStrings_length (l : List Char) :
    (stripStrings l).length = l.length :=
  stripAuxF_length l.length l (le_refl _)

/-- C7 — what `stripStrings` actually does: it preserves the line's
length, but its regex `/\\"([^\\"\\]|\\.)*\\"/g` only blanks regions
delimited by the two-character sequence backslash-quote, not plain
double-quoted string literals.  On `x = "a(b)"` — a plain double-quoted
literal containing a parenthesis — the function returns the line
unchanged, leaving the `(` in place, contrary to the documented purpose
("Remove string literals to avoid false positives"); a `\"…\"`-delimited
region is blanked. -/
theorem stripStrings_c7 :
    (∀ l : List Char, (stripStrings l).length = l.length) ∧
    stripStrings
        ('x' :: ' ' :: '=' :: ' ' :: '"' :: 'a' :: '(' :: 'b' :: ')' :: '"' :: []) =
      ('x' :: ' ' :: '=' :: ' ' :: '"' :: 'a' :: '(' :: 'b' :: ')' :: '"' :: []) ∧
    '(' ∈ stripStrings
        ('x' :: ' ' :: '=' :: ' ' :: '"' :: 'a' :: '(' :: 'b' :: ')' :: '"' :: []) ∧
    stripStrings
        ('\\' :: '"' :: 'a' :: '(' :: 'b' :: ')' :: '\\' :: '"' :: []) =
      List.replicate 8 ' ' :=
  ⟨stripStrings_length, by decide, by decide, by decide⟩

/-! ## The AST-based analyzer (`symbolTable.ts` lines 6–102)

The parser itself (`getAST` in `util.ts`, acorn extended with the external
`eslint-plugin-afl` parser, wrapped in `try/catch` returning `null` on
failure) is an external dependency; it is abstracted as a
`String → Option Node` argument.  The acorn node shapes the analyzer
touches are modelled as `Node`; source locations use acorn's convention
(1-based line, 0-based column). -/

structure SrcLoc where
  startLine : Nat
  startCol : Nat
  endLine : Nat
  endCol : Nat
deriving DecidableEq, Repr

/-- `vscode-languageserver` `Location`. -/
structure Loc where
  uri : String
  range : Range
deriving DecidableEq, Repr

/-! Child-node sequences are a mutually defined list so that the analyzer
below is plainly structural (a nested `List Node` would force
well-founded recursion). -/

mutual
inductive Node where
  | program (body : NodeList)
  | functionDeclaration (id : Option Node) (loc : Option SrcLoc)
      (params : NodeList) (body : NodeList)
  | variableDeclaration (declarations : NodeList)
  | variableDeclarator (id : Node)
  | identifier (name : String) (loc : Option SrcLoc)
  | other

inductive NodeList where
  | nil
  | cons (head : Node) (tail : NodeList)
end

structure SymbolInfo where
  name : String
  loc : Loc
  info : String
deriving DecidableEq, Repr

mutual
/-- `analyzeNode` (lines 50–102): FunctionDeclaration with a named
identifier and a location contributes the identifier, then the body
statements, then the parameters; VariableDeclaration contributes each
declarator's id; a located Identifier contributes itself; anything else
nothing. -/
def analyzeNode (uri : String) : Node → List SymbolInfo
  | .functionDeclaration id loc params body =>
      (match id, loc with
       | some (.identifier name idloc), some _ =>
           analyzeNode uri (.identifier name idloc)
             ++ analyzeNodes uri body
             ++ analyzeNodes uri params
       | _, _ => [])
  | .variableDeclaration decls => analyzeDeclarators uri decls
  | .identifier name (some loc) =>
      [{ name := name,
         loc := { uri := uri,
                  range := ⟨⟨loc.startLine - 1, loc.startCol⟩,
                           ⟨loc.endLine - 1, loc.endCol⟩⟩ },
         info := "Identifier used at line " ++ toString loc.startLine }]
  | _ => []

def analyzeNodes (uri : String) : NodeList → List SymbolInfo
  | .nil => []
  | .cons n rest => analyzeNode uri n ++ analyzeNodes uri rest

/-- The `declarations.forEach` of lines 78–85: each declarator's `id` is
analyzed (acorn declarations are always `VariableDeclarator`s). -/
def analyzeDeclarators (uri : String) : NodeList → List SymbolInfo
  | .nil => []
  | .cons d rest =>
      (match d with
       | .variableDeclarator did => analyzeNode uri did
       | _ => []) ++ analyzeDeclarators uri rest
end

/-! JavaScript `Map` as an insertion-ordered association list:
`set` overwrites in place, `delete` removes, `get` finds. -/

def mapGet {α : Type} (m : List (String × α)) (k : String) : Option α :=
  (m.find? (fun p => decide (p.1 = k))).map (fun p => p.2)

def mapSet {α : Type} (m : List (String × α)) (k : String) (v : α) :
    List (String × α) :=
  if m.any (fun p => decide (p.1 = k)) then
    m.map (fun p => if p.1 = k then (k, v) else p)
  else m ++ [(k, v)]

def mapDelete {α : Type} (m : List (String × α)) (k : String) :
    List (String × α) :=
  m.filter (fun p => decide (p.1 ≠ k))

/-- The module-level mutable maps of `symbolTable.ts` (the returned
per-call `table` is separate). -/
structure AnalyzeState where
  astMap : List (String × Node)
  symbolInfoMap : List (String × String)

/-- `processNode` (lines 42–48): write each found symbol into the table
and the info map, last writer wins. -/
def processNode (uri : String) (node : Node)
    (tm : List (String × Loc) × List (String × String)) :
    List (String × Loc) × List (String × String) :=
  (analyzeNode uri node).foldl
    (fun acc info => (mapSet acc.1 info.name info.loc, mapSet acc.2 info.name info.info))
    tm

/-- The `program.body.forEach(node => processNode(node, …))` of lines
29–38. -/
def processNodes (uri : String) : NodeList →
    List (String × Loc) × List (String × String) →
    List (String × Loc) × List (String × String)
  | .nil, tm => tm
  | .cons n rest, tm => processNodes uri rest (processNode uri n tm)

/-- `analyzeText(text, uri, clearCache)` (lines 10–40).  The local `ast`
variable first receives the cached AST, then is overwritten by a fresh
parse when the cache misses or `clearCache` is set; only a truthy result
is stored back.  When `ast` ends up null the function logs and returns
the empty table — the stale cache entry is retained but not used. -/
def analyzeText (parse : String → Option Node) (st : AnalyzeState)
    (text uri : String) (clearCache : Bool) :
    List (String × Loc) × AnalyzeState :=
  let cached := mapGet st.astMap uri
  let ast := if cached.isNone || clearCache then parse text else cached
  match ast with
  | none => ([], st)
  | some a =>
      let astMap2 := mapSet st.astMap uri a
      let tm :=
        match a with
        | .program body => processNodes uri body ([], st.symbolInfoMap)
        | _ => processNode uri a ([], st.symbolInfoMap)
      (tm.1, { astMap := astMap2, symbolInfoMap := tm.2 })

/-- C1 (counterexample input) — a parser that always fails, a state whose
cache holds a one-identifier program for the document. -/
def c1FailingParse : String → Option Node := fun _ => none

def c1CachedAst : Node :=
  .program (.cons (.identifier "Buy" (some ⟨1, 0, 1, 3⟩)) .nil)

def c1State : AnalyzeState :=
  { astMap := [("file:///a.afl", c1CachedAst)], symbolInfoMap := [] }

/-- C1 counterexample — with a cached AST present, a forced refresh
(`clearCache = true`) whose re-parse fails returns the **empty** symbol
table, not the result derived from the previous cached entry: the
cache-derived result (what a non-forced call returns) is non-empty, and
the forced call returns the empty table. -/
theorem analyzeText_stale_fallback_counterexample :
    (analyzeText c1FailingParse c1State "Buy = 1;" "file:///a.afl" true).1 = [] ∧
    (analyzeText c1FailingParse c1State "Buy = 1;" "file:///a.afl" false).1 ≠ [] := by
  constructor
  · rfl
  · decide

/-- C1 (amended) — when the re-parse fails under a forced refresh,
`analyzeText` returns the empty symbol table and leaves the module state
(AST cache and info map) untouched; the previous cached entry, if any, is
retained for later non-forced calls but is not used for this call's
result.  The failure is absorbed (`getAST` catches and returns null), so
the function is total and no exception reaches the caller. -/
theorem analyzeText_forced_refresh_parse_failure
    (parse : String → Option Node) (st : AnalyzeState) (text uri : String)
    (hfail : parse text = none) :
    analyzeText parse st text uri true = ([], st) := by
  simp [analyzeText, hfail]

/-- Witness for C1's amended theorem at the counterexample input. -/
theorem analyzeText_forced_refresh_parse_failure_witness :
    analyzeText c1FailingParse c1State "Buy = 1;" "file:///a.afl" true =
      ([], c1State) :=
  analyzeText_forced_refresh_parse_failure c1FailingParse c1State
    "Buy = 1;" "file:///a.afl" rfl

/-! ## Server handlers (`server.ts`) -/

inductive CompletionKind where
  | function
deriving DecidableEq, Repr

structure CompletionItem where
  label : String
  kind : CompletionKind
  data : String
deriving DecidableEq, Repr

/-- The server's module-level state: the analyzer maps, the global
`symbolTable` (line 30 import, fed by `updateSymbolsForDocument`) and the
per-document settings cache (line 168). -/
structure ServerState where
  analyze : AnalyzeState
  symbolTable : List (String × Loc)
  documentSettings : List (String × Nat)

/-- `updateSymbolsForDocument` (lines 130–136): run the analyzer and merge
every returned symbol into the global table. -/
def updateSymbolsForDocument (parse : String → Option Node) (st : ServerState)
    (uri text : String) (clearCache : Bool) : ServerState :=
  let r := analyzeText parse st.analyze text uri clearCache
  { st with
      analyze := r.2,
      symbolTable := r.1.foldl (fun t kv => mapSet t kv.1 kv.2) st.symbolTable }

/-- `documents.onDidOpen` (line 110). -/
def onDidOpen (parse : String → Option Node) (st : ServerState)
    (uri text : String) : ServerState :=
  updateSymbolsForDocument parse st uri text false

/-- `documents.onDidClose` (lines 204–206): only the per-document settings
entry is discarded. -/
def onDidClose (st : ServerState) (uri : String) : ServerState :=
  { st with documentSettings := mapDelete st.documentSettings uri }

/-- `connection.onCompletion` (lines 253–263): one item per entry of the
whole global symbol table. -/
def onCompletion (st : ServerState) : List CompletionItem :=
  st.symbolTable.map (fun kv => { label := kv.1, kind := .function, data := kv.1 })

theorem mapSet_mem_key {α : Type} (m : List (String × α)) (k : String) (v : α) :
    ∃ v', (k, v') ∈ mapSet m k v := by
  unfold mapSet
  split
  · rename_i hany
    rw [List.any_eq_true] at hany
    obtain ⟨p, hp, hpk⟩ := hany
    simp only [decide_eq_true_eq] at hpk
    refine ⟨v, ?_⟩
    rw [List.mem_map]
    exact ⟨p, hp, by simp [hpk]⟩
  · exact ⟨v, by simp⟩

theorem mapSet_mem_preserve {α : Type} (m : List (String × α)) (k2 : String) (v2 : α)
    (k : String) (v : α) (h : (k, v) ∈ m) :
    ∃ v', (k, v') ∈ mapSet m k2 v2 := by
  unfold mapSet
  split
  · by_cases hk : k = k2
    · subst hk
      refine ⟨v2, ?_⟩
      rw [List.mem_map]
      exact ⟨(k, v), h, by simp⟩
    · refine ⟨v, ?_⟩
      rw [List.mem_map]
      exact ⟨(k, v), h, by simp [hk]⟩
  · exact ⟨v, by simp [h]⟩

theorem foldl_mapSet_preserve {α : Type} (pairs : List (String × α))
    (init : List (String × α)) (k : String) (v : α) (h : (k, v) ∈ init) :
    ∃ v', (k, v') ∈ pairs.foldl (fun t kv => mapSet t kv.1 kv.2) init := by
  induction pairs generalizing init v with
  | nil => exact ⟨v, h⟩
  | cons p rest ih =>
      obtain ⟨v', h'⟩ := mapSet_mem_preserve init p.1 p.2 k v h
      simpa using ih (mapSet init p.1 p.2) v' h'

theorem foldl_mapSet_mem {α : Type} (pairs : List (String × α))
    (init : List (String × α)) (k : String) (v : α) (h : (k, v) ∈ pairs) :
    ∃ v', (k, v') ∈ pairs.foldl (fun t kv => mapSet t kv.1 kv.2) init := by
  induction pairs generalizing init with
  | nil => cases h
  | cons p rest ih =>
      rcases List.mem_cons.mp h with he | hm
      · subst he
        obtain ⟨v', h'⟩ := mapSet_mem_key init k v
        simpa using foldl_mapSet_preserve rest _ k v' h'
      · simpa using ih (mapSet init p.1 p.2) hm

/-- C8 — closing a document removes nothing from the global symbol table:
the close handler only deletes that document's settings entry, so the
completion list (drawn from the entire table) is unchanged, and every
symbol name the open had indexed is still offered after the close. -/
theorem onDidClose_preserves_completions
    (parse : String → Option Node) (st : ServerState) (uri text closedUri : String) :
    onCompletion (onDidClose (onDidOpen parse st uri text) closedUri) =
      onCompletion (onDidOpen parse st uri text) ∧
    (onDidClose (onDidOpen parse st uri text) closedUri).symbolTable =
      (onDidOpen parse st uri text).symbolTable ∧
    ∀ name loc, (name, loc) ∈ (analyzeText parse st.analyze text uri false).1 →
      ∃ item ∈ onCompletion (onDidClose (onDidOpen parse st uri text) closedUri),
        item.label = name := by
  refine ⟨rfl, rfl, ?_⟩
  intro name loc hmem
  obtain ⟨v', hv⟩ := foldl_mapSet_mem _ st.symbolTable name loc hmem
  refine ⟨{ label := name, kind := .function, data := name }, ?_, rfl⟩
  simp only [onCompletion, onDidClose, onDidOpen, updateSymbolsForDocument, List.mem_map]
  exact ⟨(name, v'), hv, rfl⟩

/-- Witness for C8: open a one-symbol document, close it, and the symbol
is still completed. -/
def c8Parse : String → Option Node :=
  fun _ => some (.program (.cons (.identifier "Buy" (some ⟨1, 0, 1, 3⟩)) .nil))

def c8State : ServerState :=
  { analyze := { astMap := [], symbolInfoMap := [] },
    symbolTable := [], documentSettings := [("file:///a.afl", 1000)] }

theorem onDidClose_preserves_completions_witness :
    (("Buy", ({ uri := "file:///a.afl",
                range := ⟨⟨0, 0⟩, ⟨0, 3⟩⟩ } : Loc)) ∈
      (analyzeText c8Parse c8State.analyze "Buy = 1;" "file:///a.afl" false).1) ∧
    ∃ item ∈ onCompletion
        (onDidClose (onDidOpen c8Parse c8State "file:///a.afl" "Buy = 1;")
          "file:///a.afl"),
      item.label = "Buy" :=
  ⟨by decide,
   (onDidClose_preserves_completions c8Parse c8State "file:///a.afl" "Buy = 1;"
      "file:///a.afl").2.2 "Buy"
      ({ uri := "file:///a.afl", range := ⟨⟨0, 0⟩, ⟨0, 3⟩⟩ } : Loc) (by decide)⟩

/-! ## The debounced re-index scheduler (`server.ts` lines 112–128)

`updateSymbolTimeout` is a single module-level timer handle shared by
every document.  `onDidChangeContent` ignores non-`afl` documents;
otherwise it clears whatever timer is pending — for whichever document —
and schedules the 2-second recompute for its own document.  The state
records which document's recompute is pending. -/

structure DebounceState where
  pending : Option String
deriving DecidableEq, Repr

def onDidChangeContent (st : DebounceState) (uri languageId : String) :
    DebounceState :=
  if languageId ≠ "afl" then st
  else { pending := some uri }

/-- C9 counterexample — the debounce timer is global, not per document: a
pending recompute for `a.afl` is cancelled and replaced by a change
notification for the different document `b.afl`, contradicting the claim
that only a change to the same document id replaces it. -/
theorem onDidChangeContent_cross_document_counterexample :
    (onDidChangeContent { pending := some "file:///a.afl" }
        "file:///b.afl" "afl").pending = some "file:///b.afl" ∧
    (onDidChangeContent { pending := some "file:///a.afl" }
        "file:///b.afl" "afl").pending ≠ some "file:///a.afl" := by
  constructor
  · rfl
  · decide

/-- C9 (amended) — there is one global pending recompute: a change to any
`afl` document cancels and replaces it with that document's recompute
(whatever document it previously belonged to), so successive changes
within the debounce window coalesce and only the most recent change's
document is recomputed; a change for a non-afl document leaves the
scheduler untouched. -/
theorem onDidChangeContent_global_debounce
    (st : DebounceState) (uri languageId : String) :
    (languageId = "afl" →
      onDidChangeContent st uri languageId = { pending := some uri }) ∧
    (languageId ≠ "afl" → onDidChangeContent st uri languageId = st) := by
  constructor
  · intro h
    simp [onDidChangeContent, h]
  · intro h
    simp [onDidChangeContent, h]

/-- Witness for C9's amended theorem: a change to `b.afl` replaces the
pending recompute of `a.afl`. -/
theorem onDidChangeContent_global_debounce_witness :
    onDidChangeContent { pending := some "file:///a.afl" }
        "file:///b.afl" "afl" = { pending := some "file:///b.afl" } :=
  (onDidChangeContent_global_debounce { pending := some "file:///a.afl" }
    "file:///b.afl" "afl").1 rfl

/-! ## Quick-fix generator (`rules/functions.ts` lines 105–136 and
`server.ts` lines 304–315) -/

structure TextEdit where
  range : Range
  newText : List Char
deriving DecidableEq, Repr

/-- `document.getText(range)` for a single-line range (every diagnostic of
the lint rule spans a single line). -/
def getTextInRange (lines : List (List Char)) (r : Range) : List Char :=
  ((lines.getD r.start.line []).drop r.start.character).take
    (r.stop.character - r.start.character)

/-- `fixFunctionSapces` (source spelling kept): read the live text in the
diagnostic's range, find the last `)` and replace it by `' )'`.  Returns
the edit carried by the produced code action (none when no `)` is found;
the document-lookup failure of line 109 is the caller passing unknown
lines). -/
def fixFunctionSapces (lines : List (List Char)) (d : Diagnostic) :
    Option TextEdit :=
  let text := getTextInRange lines d.range
  match lastIndexOfChar text ')' with
  | none => none
  | some lastParen =>
      some { range := d.range,
             newText := text.take lastParen ++ ' ' :: ')' :: text.drop (lastParen + 1) }

/-- The guard of `connection.onCodeAction`:
`diagnostic.message.includes("space before ')'")`. -/
def codeActionApplies (d : Diagnostic) : Bool :=
  containsSub ('s' :: 'p' :: 'a' :: 'c' :: 'e' :: ' ' :: 'b' :: 'e' :: 'f' ::
    'o' :: 'r' :: 'e' :: ' ' :: '\'' :: ')' :: '\'' :: []) d.message.data

/-- Applying a single-line `TextEdit` to a document given by its lines. -/
def applyEditToLines (lines : List (List Char)) (e : TextEdit) :
    List (List Char) :=
  let l := lines.getD e.range.start.line []
  lines.set e.range.start.line
    (l.take e.range.start.character ++ e.newText ++ l.drop e.range.stop.character)

/-- Insertion of one character at an index. -/
def insertAt (l : List Char) (i : Nat) (x : Char) : List Char :=
  l.take i ++ x :: l.drop i

theorem insertAt_length (l : List Char) (i : Nat) (x : Char) (h : i ≤ l.length) :
    (insertAt l i x).length = l.length + 1 := by
  simp [insertAt]
  omega

theorem insertAt_get?_lt (l : List Char) (i : Nat) (x : Char) (n : Nat)
    (hi : i ≤ l.length) (hn : n < i) :
    (insertAt l i x).get? n = l.get? n := by
  unfold insertAt
  rw [List.get?_append (by simp; omega)]
  rw [List.get?_take hn]

theorem insertAt_get?_self (l : List Char) (i : Nat) (x : Char)
    (hi : i ≤ l.length) :
    (insertAt l i x).get? i = some x := by
  unfold insertAt
  rw [List.get?_append_right (by simp)]
  simp [Nat.min_eq_left hi]

theorem insertAt_get?_gt (l : List Char) (i : Nat) (x : Char) (n : Nat)
    (hi : i ≤ l.length) (hn : i < n) :
    (insertAt l i x).get? n = l.get? (n - 1) := by
  unfold insertAt
  rw [List.get?_append_right (by simp; omega)]
  have hlen : (l.take i).length = i := by simp [Nat.min_eq_left hi]
  rw [hlen]
  have h2 : n - i = (n - i - 1) + 1 := by omega
  rw [h2]
  simp only [List.get?_cons_succ, List.get?_drop]
  congr 1
  omega

/-- `strIndexOf` soundness: the result is the first occurrence at or
after the start. -/
theorem strIndexOf_spec (l : List Char) (ch : Char) :
    ∀ start i, strIndexOf l ch start = some i →
    start ≤ i ∧ l.get? i = some ch ∧
    ∀ q, start ≤ q → q < i → l.get? q ≠ some ch := by
  have H : ∀ fuel start i, strIndexOfF l ch fuel start = some i →
      start ≤ i ∧ l.get? i = some ch ∧
      ∀ q, start ≤ q → q < i → l.get? q ≠ some ch := by
    intro fuel
    induction fuel with
    | zero => intro start i h; cases h
    | succ fuel ih =>
        intro start i h
        simp only [strIndexOfF] at h
        split at h
        · split at h
          · rename_i hlt hg
            cases h
            exact ⟨le_refl _, hg, fun q h1 h2 => absurd h1 (by omega)⟩
          · rename_i hlt hg
            have := ih (start + 1) i h
            refine ⟨by omega, this.2.1, ?_⟩
            intro q h1 h2
            by_cases hq : q = start
            · subst hq; exact hg
            · exact this.2.2 q (by omega) h2
        · cases h
  intro start i h
  exact H (l.length - start) start i h

/-- `strIndexOf` completeness: a first occurrence is found. -/
theorem strIndexOf_complete (l : List Char) (ch : Char) :
    ∀ start i, start ≤ i → l.get? i = some ch →
    (∀ q, start ≤ q → q < i → l.get? q ≠ some ch) →
    strIndexOf l ch start = some i := by
  intro start i
  have H : ∀ fuel start, i + 1 - start ≤ fuel → start ≤ i → l.get? i = some ch →
      (∀ q, start ≤ q → q < i → l.get? q ≠ some ch) →
      strIndexOf l ch start = some i := by
    intro fuel
    induction fuel with
    | zero => intro start hf h1 h2 h3; omega
    | succ fuel ih =>
        intro start hf h1 h2 h3
        have hilen : i < l.length := (List.get?_eq_some.mp h2).1
        rw [strIndexOf_unfold, if_pos (by omega)]
        by_cases he : start = i
        · subst he
          rw [if_pos h2]
        · have hne := h3 start (le_refl _) (by omega)
          rw [if_neg hne]
          exact ih (start + 1) (by omega) (by omega) h2
            (fun q hq1 hq2 => h3 q (by omega) hq2)
  exact fun h1 h2 h3 => H (i + 1 - start) start (le_refl _) h1 h2 h3

/-- Every index inside a greedy run satisfies the predicate. -/
theorem scanEnd_all (p : Char → Bool) (l : List Char) :
    ∀ start i, start ≤ i → i < scanEnd p l start →
    ∃ c, l.get? i = some c ∧ p c = true := by
  intro start i
  have H : ∀ fuel start, i + 1 - start ≤ fuel → start ≤ i →
      i < scanEnd p l start → ∃ c, l.get? i = some c ∧ p c = true := by
    intro fuel
    induction fuel with
    | zero => intro start hf h1 h2; omega
    | succ fuel ih =>
        intro start hf h1 h2
        rw [scanEnd_unfold] at h2
        cases hg : l.get? start with
        | none => simp only [hg] at h2; omega
        | some c =>
            simp only [hg] at h2
            by_cases hp : p c = true
            · rw [if_pos hp] at h2
              by_cases he : i = start
              · subst he; exact ⟨c, hg, hp⟩
              · exact ih (start + 1) (by omega) (by omega) h2
            · rw [if_neg hp] at h2
              omega
  exact fun h1 h2 => H (i + 1 - start) start (le_refl _) h1 h2

/-- Scanning is unchanged when the two strings agree on the scanned
region. -/
theorem scanEnd_congr (p : Char → Bool) (u v : List Char) (e : Nat) :
    ∀ start, (∀ i, start ≤ i → i ≤ e → v.get? i = u.get? i) →
    scanEnd p u start = e → scanEnd p v start = e := by
  intro start
  have H : ∀ fuel start, e + 1 - start ≤ fuel →
      (∀ i, start ≤ i → i ≤ e → v.get? i = u.get? i) →
      scanEnd p u start = e → scanEnd p v start = e := by
    intro fuel
    induction fuel with
    | zero =>
        intro start hf hagree hsc
        have := scanEnd_ge p u start
        omega
    | succ fuel ih =>
        intro start hf hagree hsc
        have hse : start ≤ e := by
          have := scanEnd_ge p u start
          omega
        rw [scanEnd_unfold] at hsc
        rw [scanEnd_unfold, hagree start (le_refl _) hse]
        cases hg : u.get? start with
        | none => simp only [hg] at hsc ⊢; exact hsc
        | some c =>
            simp only [hg] at hsc ⊢
            by_cases hp : p c = true
            · rw [if_pos hp] at hsc
              rw [if_pos hp]
              have hge : start + 1 ≤ e := by
                have := scanEnd_ge p u (start + 1)
                omega
              exact ih (start + 1) (by omega)
                (fun i h1 h2 => hagree i (by omega) h2) hsc
            · rw [if_neg hp] at hsc
              rw [if_neg hp]
              exact hsc
  exact fun hagree hsc => H (e + 1 - start) start (le_refl _) hagree hsc

theorem findCloseAuxF_ge (l : List Char) :
    ∀ (fuel i : Nat) (depth : Int) (r : Nat),
      findCloseAuxF l fuel i depth = some r → i ≤ r := by
  intro fuel
  induction fuel with
  | zero => intro i depth r h; cases h
  | succ fuel ih =>
      intro i depth r h
      simp only [findCloseAuxF] at h
      cases hg : l.get? i with
      | none => rw [hg] at h; cases h
      | some c =>
          simp only [hg] at h
          by_cases h0 : (if c = '(' then depth + 1
              else if c = ')' then depth - 1 else depth) = 0
          · rw [if_pos h0] at h
            cases h
            exact le_refl _
          · rw [if_neg h0] at h
            have := ih (i + 1) _ r h
            omega

/-- With positive running depth the loop can only stop on a `)`. -/
theorem findCloseAuxF_close (l : List Char) :
    ∀ (fuel i : Nat) (depth : Int) (r : Nat), 0 < depth →
      findCloseAuxF l fuel i depth = some r →
      i ≤ r ∧ l.get? r = some ')' := by
  intro fuel
  induction fuel with
  | zero => intro i depth r hd h; cases h
  | succ fuel ih =>
      intro i depth r hd h
      simp only [findCloseAuxF] at h
      cases hg : l.get? i with
      | none => rw [hg] at h; cases h
      | some c =>
          simp only [hg] at h
          by_cases h0 : (if c = '(' then depth + 1
              else if c = ')' then depth - 1 else depth) = 0
          · rw [if_pos h0] at h
            cases h
            refine ⟨le_refl _, ?_⟩
            by_cases hc1 : c = '('
            · rw [if_pos hc1] at h0; omega
            · rw [if_neg hc1] at h0
              by_cases hc2 : c = ')'
              · rw [hc2] at hg; exact hg
              · rw [if_neg hc2] at h0; omega
          · rw [if_neg h0] at h
            have hd2 : 0 < (if c = '(' then depth + 1
                else if c = ')' then depth - 1 else depth) := by
              by_cases hc1 : c = '('
              · rw [if_pos hc1]; omega
              · rw [if_neg hc1] at h0 ⊢
                by_cases hc2 : c = ')'
                · rw [if_pos hc2] at h0 ⊢; omega
                · rw [if_neg hc2] at h0 ⊢; omega
            have := ih (i + 1) _ r hd2 h
            exact ⟨by omega, this.2⟩

/-- A close found for an actual `(` lies strictly beyond it and is a `)`. -/
theorem findClose_spec (l : List Char) (o cl : Nat)
    (hopen : l.get? o = some '(') (h : findClose l o = some cl) :
    o < cl ∧ l.get? cl = some ')' := by
  unfold findClose at h
  rw [findCloseAux_unfold] at h
  simp only [hopen, if_pos rfl] at h
  norm_num at h
  have := findCloseAuxF_close l (l.length - (o + 1)) (o + 1) 1 cl (by norm_num) h
  exact ⟨by omega, this.2⟩

/-- Inserting a space just before the matched `)` moves the close one
position to the right: the loop sees the same characters up to the
insertion point, skips the space with unchanged depth, and closes on the
shifted `)`. -/
theorem findCloseAux_insert (u : List Char) (cl : Nat)
    (hcl : u.get? cl = some ')') :
    ∀ (i : Nat) (depth : Int), i ≤ cl → findCloseAux u i depth = some cl →
    findCloseAux (insertAt u cl ' ') i depth = some (cl + 1) := by
  have hcllen : cl < u.length := (List.get?_eq_some.mp hcl).1
  have H : ∀ (fuel i : Nat) (depth : Int), cl + 1 - i ≤ fuel → i ≤ cl →
      findCloseAux u i depth = some cl →
      findCloseAux (insertAt u cl ' ') i depth = some (cl + 1) := by
    intro fuel
    induction fuel with
    | zero => intro i depth hf hi h; omega
    | succ fuel ih =>
        intro i depth hf hi h
        rw [findCloseAux_unfold] at h
        rw [findCloseAux_unfold]
        by_cases hic : i = cl
        · subst hic
          simp only [hcl] at h
          have hne1 : ¬(')' = '(') := by decide
          rw [if_neg hne1, if_true] at h
          simp only [insertAt_get?_self u i ' ' (by omega)]
          rw [if_neg (show ¬(' ' = '(') by decide),
              if_neg (show ¬(' ' = ')') by decide)]
          by_cases hd : depth - 1 = 0
          · have hdep : depth = 1 := by omega
            subst hdep
            rw [if_neg (by norm_num)]
            rw [findCloseAux_unfold]
            simp only [insertAt_get?_gt u i ' ' (i + 1) (by omega) (by omega),
              Nat.add_sub_cancel, hcl]
            rw [if_neg hne1]
            norm_num
          · exfalso
            rw [if_neg hd] at h
            have := findCloseAuxF_ge u (u.length - (i + 1)) (i + 1) (depth - 1) i h
            omega
        · have hilt : i < cl := by omega
          rw [insertAt_get?_lt u cl ' ' i (by omega) hilt]
          cases hg : u.get? i with
          | none => rw [hg] at h; cases h
          | some c =>
              simp only [hg] at h ⊢
              by_cases h0 : (if c = '(' then depth + 1
                  else if c = ')' then depth - 1 else depth) = 0
              · rw [if_pos h0] at h
                cases h
                omega
              · rw [if_neg h0] at h ⊢
                exact ih (i + 1) _ (by omega) (by omega) h
  exact fun i depth => H (cl + 1 - i) i depth (le_refl _)

/-! Identity of `stripStrings` on quote-free lines (every match of its
pattern contains a quote character). -/

theorem stripAuxF_id_of_no_quote :
    ∀ (fuel : Nat) (l : List Char), '"' ∉ l → stripAuxF fuel l = l := by
  intro fuel
  induction fuel with
  | zero => intro l h; rfl
  | succ fuel ih =>
      intro l h
      simp only [stripAuxF]
      split
      · rfl
      · rename_i rest
        exfalso
        simp at h
      · rename_i c rest hside
        rw [ih rest (fun hm => h (List.mem_cons_of_mem c hm))]

theorem stripStrings_id_of_no_quote (l : List Char) (h : '"' ∉ l) :
    stripStrings l = l :=
  stripAuxF_id_of_no_quote l.length l h

/-! `indexOfSub` characterisation: the first position where the pattern
occurs. -/

theorem indexOfSub_some (pat : List Char) :
    ∀ (l : List Char) (p : Nat), indexOfSub pat l = some p →
    listStartsWith pat (l.drop p) = true ∧
    ∀ q < p, listStartsWith pat (l.drop q) = false := by
  intro l
  induction l with
  | nil =>
      intro p h
      simp only [indexOfSub] at h
      split at h
      · rename_i hs
        cases h
        exact ⟨hs, fun q hq => absurd hq (by omega)⟩
      · cases h
  | cons c rest ih =>
      intro p h
      simp only [indexOfSub] at h
      by_cases hs : listStartsWith pat (c :: rest) = true
      · rw [if_pos hs] at h
        cases h
        exact ⟨hs, fun q hq => absurd hq (by omega)⟩
      · rw [if_neg hs] at h
        cases hio : indexOfSub pat rest with
        | none => rw [hio] at h; cases h
        | some p' =>
            rw [hio] at h
            simp only [Option.map_some', Option.some.injEq] at h
            subst h
            have hr := ih p' hio
            refine ⟨by simpa using hr.1, ?_⟩
            intro q hq
            cases q with
            | zero => simpa using hs
            | succ q' => simpa using hr.2 q' (by omega)

theorem indexOfSub_none (pat : List Char) :
    ∀ (l : List Char), indexOfSub pat l = none →
    ∀ q, listStartsWith pat (l.drop q) = false := by
  intro l
  induction l with
  | nil =>
      intro h q
      simp only [indexOfSub] at h
      split at h
      · cases h
      · rename_i hs
        simpa using hs
  | cons c rest ih =>
      intro h q
      simp only [indexOfSub] at h
      by_cases hs : listStartsWith pat (c :: rest) = true
      · rw [if_pos hs] at h; cases h
      · rw [if_neg hs] at h
        have hrest : indexOfSub pat rest = none := by
          cases hio : indexOfSub pat rest with
          | none => rfl
          | some p => rw [hio] at h; cases h
        cases q with
        | zero => simpa using hs
        | succ q' => simpa using ih hrest q'

theorem indexOfSub_complete (pat : List Char) :
    ∀ (l : List Char) (p : Nat), listStartsWith pat (l.drop p) = true →
    (∀ q < p, listStartsWith pat (l.drop q) = false) →
    indexOfSub pat l = some p := by
  intro l
  induction l with
  | nil =>
      intro p h1 h2
      cases p with
      | zero =>
          simp only [indexOfSub]
          rw [if_pos (by simpa using h1)]
      | succ p' =>
          exfalso
          have h0 := h2 0 (by omega)
          simp only [List.drop_nil] at h1 h0
          rw [h1] at h0
          cases h0
  | cons c rest ih =>
      intro p h1 h2
      simp only [indexOfSub]
      cases p with
      | zero => rw [if_pos (by simpa using h1)]
      | succ p' =>
          rw [if_neg (by simpa using h2 0 (Nat.zero_lt_succ _))]
          rw [ih p' (by simpa using h1)
            (fun q hq => by simpa using h2 (q + 1) (by omega))]
          rfl

/-- A two-character pattern occurs at `q` exactly when the two characters
sit at `q` and `q + 1`. -/
theorem listStartsWith_pair (a b : Char) (l : List Char) (q : Nat) :
    listStartsWith (a :: b :: []) (l.drop q) = true ↔
    (l.get? q = some a ∧ l.get? (q + 1) = some b) := by
  have h0 : (l.drop q).get? 0 = l.get? q := by
    rw [List.get?_drop, Nat.add_zero]
  have h1 : (l.drop q).get? 1 = l.get? (q + 1) := by
    rw [List.get?_drop]
  rw [← h0, ← h1]
  generalize l.drop q = xs
  cases xs with
  | nil => simp [listStartsWith]
  | cons c rest =>
      cases rest with
      | nil => simp [listStartsWith]
      | cons d tail =>
          simp only [listStartsWith, Bool.and_eq_true, decide_eq_true_eq,
            Bool.and_true, List.get?_cons_zero, List.get?_cons_succ,
            Option.some.injEq]
          constructor
          · rintro ⟨h1, h2⟩
            exact ⟨h1.symm, h2.symm⟩
          · rintro ⟨h1, h2⟩
            exact ⟨h1.symm, h2.symm⟩

theorem lastIndexOfChar_concat (l : List Char) (c : Char) :
    lastIndexOfChar (l ++ [c]) c = some l.length := by
  induction l with
  | nil => simp [lastIndexOfChar]
  | cons a rest ih =>
      simp only [List.cons_append, lastIndexOfChar, List.append_eq, ih]
      simp [List.length_cons]

/-- A list ending in `c` at index `i` (its last position) has `i` as the
last index of `c`. -/
theorem lastIndexOfChar_last (xs : List Char) (c : Char) (i : Nat)
    (hlen : xs.length = i + 1) (hget : xs.get? i = some c) :
    lastIndexOfChar xs c = some i := by
  have hne : xs ≠ [] := by
    intro he; rw [he] at hlen; cases hlen
  have hl0 : xs.getLast? = some c := by
    rw [List.getLast?_eq_getElem?]
    have he : xs.length - 1 = i := by omega
    rw [he]
    simpa [← List.get?_eq_getElem?] using hget
  rw [List.getLast?_eq_getLast xs hne] at hl0
  have hc : xs.getLast hne = c := by simpa using hl0
  have hsplit := List.dropLast_append_getLast hne
  rw [← hsplit, hc, lastIndexOfChar_concat]
  rw [List.length_dropLast]
  congr 1
  omega

/-! ## Inversion of the document run: from a reported diagnostic back to
the line that produced it, its scanned text and the responsible call. -/

/-- A diagnostic of the document run comes from some line, processed with
some comment-block state. -/
theorem checkLines_mem_inv (ls : List (List Char)) :
    ∀ (base : Nat) (b : Bool) (d : Diagnostic), d ∈ checkLines ls base b →
    ∃ (k : Nat) (hk : k < ls.length) (bk : Bool),
      d ∈ (lintLine (base + k) (ls.get ⟨k, hk⟩) bk).2 := by
  induction ls with
  | nil => intro base b d h; cases h
  | cons l rest ih =>
      intro base b d h
      simp only [checkLines, List.mem_append] at h
      cases h with
      | inl hl => exact ⟨0, by simp, b, hl⟩
      | inr hr =>
          obtain ⟨k, hk, bk, hm⟩ := ih (base + 1) _ d hr
          refine ⟨k + 1, by simpa using Nat.succ_lt_succ hk, bk, ?_⟩
          have harith : base + (k + 1) = base + 1 + k := by omega
          rw [harith]
          exact hm

/-- A line that contributed a diagnostic was not a line comment, contained
no double quote, and the diagnostic came from the scan of its stripped
text. -/
theorem lintLine_mem_inv (lineNum : Nat) (l : List Char) (b : Bool)
    (d : Diagnostic) (h : d ∈ (lintLine lineNum l b).2) :
    isLineComment l = false ∧ l.contains '"' = false ∧
    d ∈ scanLine lineNum (stripStrings (removeLineComment l)) 0 := by
  by_cases h1 : isLineComment l = true
  · rw [lintLine_skip lineNum l b (Or.inl h1)] at h; cases h
  by_cases h2 : l.contains '"' = true
  · rw [lintLine_skip lineNum l b (Or.inr (Or.inl h2))] at h; cases h
  by_cases h3 : transLine l b = true
  · rw [lintLine_skip lineNum l b (Or.inr (Or.inr h3))] at h; cases h
  rw [lintLine_not_skipped lineNum l b (by simpa using h1) (by simpa using h2)
    (by simpa using h3)] at h
  exact ⟨by simpa using h1, by simpa using h2, h⟩

/-- Only the leading-present/trailing-missing branch emits
`"Expected space before ')'"`, and it fully determines the diagnostic. -/
theorem diagFor_msgBefore_inv (lineNum : Nat) (l : List Char) (s o cl : Nat)
    (d : Diagnostic) (h : diagFor lineNum l (s, o, cl) = some d)
    (hmsg : d.message = msgBefore) :
    (argsOf l o cl).all isSpaceJS = false ∧
    hasLeadingWS (argsOf l o cl) = true ∧
    hasTrailingWS (argsOf l o cl) = false ∧
    d = ⟨.warning, ⟨⟨lineNum, s⟩, ⟨lineNum, cl + 1⟩⟩, msgBefore, "afl-lsp"⟩ := by
  by_cases hblank : (argsOf l o cl).all isSpaceJS = true
  · rw [diagFor_blank lineNum l s o cl hblank] at h; cases h
  have hblank' : (argsOf l o cl).all isSpaceJS = false := by simpa using hblank
  by_cases hA : hasLeadingWS (argsOf l o cl) = true
  · by_cases hB : hasTrailingWS (argsOf l o cl) = true
    · exfalso
      simp [diagFor, hblank', hA, hB] at h
    · have hB' : hasTrailingWS (argsOf l o cl) = false := by simpa using hB
      rw [diagFor_only_trailing_missing lineNum l s o cl hA hB'] at h
      cases h
      exact ⟨hblank', hA, hB', rfl⟩
  · have hA' : hasLeadingWS (argsOf l o cl) = false := by simpa using hA
    by_cases hB : hasTrailingWS (argsOf l o cl) = true
    · rw [diagFor_only_leading_missing lineNum l s o cl hA' hB] at h
      cases h
      exact absurd (show msgAfter = msgBefore from hmsg) (by decide)
    · have hB' : hasTrailingWS (argsOf l o cl) = false := by simpa using hB
      rw [diagFor_both_missing lineNum l s o cl hblank' hA' hB'] at h
      cases h
      exact absurd (show msgBoth = msgBefore from hmsg) (by decide)

/-- What a successful regex-step match tells us: the boundary test passed,
the first character starts an identifier, the two greedy runs produced the
recorded ends, and the character at the second end is `(`. -/
theorem matchCallAt_inv (l : List Char) (i j k : Nat)
    (h : matchCallAt l i = some (j, k)) :
    boundaryOk l i = true ∧
    (∃ c, l.get? i = some c ∧ isIdentStart c = true) ∧
    j = scanEnd isWordChar l (i + 1) ∧ k = scanEnd isSpaceJS l j ∧
    l.get? k = some '(' := by
  simp only [matchCallAt] at h
  split at h
  · rename_i c hg
    split at h
    · rename_i hcond
      split at h
      · rename_i c2 hk
        split at h
        · rename_i hc2
          simp only [Option.some.injEq, Prod.mk.injEq] at h
          obtain ⟨hj, hk2⟩ := h
          subst hc2
          simp only [Bool.and_eq_true] at hcond
          subst hj
          subst hk2
          exact ⟨hcond.1, ⟨c, hg, hcond.2⟩, rfl, rfl, hk⟩
        · cases h
      · cases h
    · cases h
  · cases h

/-! ## The comment-stripped line versus the original line -/

theorem removeLineComment_length_le (l : List Char) :
    (removeLineComment l).length ≤ l.length := by
  unfold removeLineComment
  split
  · rw [List.length_take]; omega
  · exact le_refl _

theorem removeLineComment_get? (l : List Char) (i : Nat) (c : Char)
    (h : (removeLineComment l).get? i = some c) : l.get? i = some c := by
  unfold removeLineComment at h
  split at h
  · rename_i m hm
    have hi : i < (l.take m).length := (List.get?_eq_some.mp h).1
    rw [List.length_take] at hi
    rw [List.get?_take (by omega)] at h
    exact h
  · exact h

theorem removeLineComment_sub (l : List Char) (c : Char)
    (h : c ∈ removeLineComment l) : c ∈ l := by
  unfold removeLineComment at h
  split at h
  · exact List.mem_of_mem_take h
  · exact h

/-- The slice taken by a diagnostic's range reads the same characters from
the original line and from its comment-stripped prefix, because the range
ends inside that prefix. -/
theorem removeLineComment_span (l : List Char) (s cl : Nat)
    (hcl : cl < (removeLineComment l).length) :
    ((removeLineComment l).drop s).take (cl + 1 - s) =
      (l.drop s).take (cl + 1 - s) := by
  cases him : indexOfSub slashSlash l with
  | none => simp only [removeLineComment, him]
  | some m =>
      simp only [removeLineComment, him] at hcl ⊢
      rw [List.length_take] at hcl
      rw [List.drop_take, List.take_take]
      congr 1
      omega

/-- A `//` window of the line with a space inserted at `cl` maps back to a
`//` window of the original line: before the insertion point unchanged,
after it shifted down by one (the windows touching the inserted space
contain the space itself). -/
theorem slash_pair_unshift (l : List Char) (cl p : Nat) (hcl : cl ≤ l.length)
    (hp1 : (insertAt l cl ' ').get? p = some '/')
    (hp2 : (insertAt l cl ' ').get? (p + 1) = some '/') :
    (p + 1 < cl ∧ l.get? p = some '/' ∧ l.get? (p + 1) = some '/') ∨
    (cl < p ∧ l.get? (p - 1) = some '/' ∧ l.get? p = some '/') := by
  have hsp := insertAt_get?_self l cl ' ' hcl
  have hpne : p ≠ cl := by
    intro he; rw [he, hsp] at hp1; exact absurd hp1 (by decide)
  have hp1ne : p + 1 ≠ cl := by
    intro he; rw [he, hsp] at hp2; exact absurd hp2 (by decide)
  by_cases hlt : p < cl
  · left
    have hplt : p + 1 < cl := by omega
    refine ⟨hplt, ?_, ?_⟩
    · rw [← insertAt_get?_lt l cl ' ' p hcl (by omega)]; exact hp1
    · rw [← insertAt_get?_lt l cl ' ' (p + 1) hcl hplt]; exact hp2
  · right
    have hgt : cl < p := by omega
    refine ⟨hgt, ?_, ?_⟩
    · rw [← insertAt_get?_gt l cl ' ' p hcl hgt]; exact hp1
    · rw [insertAt_get?_gt l cl ' ' (p + 1) hcl (by omega)] at hp2
      simpa using hp2

/-- Inserting a space strictly inside the comment-stripped prefix commutes
with comment stripping: the space can neither create nor destroy a `//`
occurrence at or before the insertion point, and the first occurrence, if
any, shifts one position to the right. -/
theorem removeLineComment_insertAt (l : List Char) (cl : Nat)
    (hcl : cl < (removeLineComment l).length) :
    removeLineComment (insertAt l cl ' ') =
      insertAt (removeLineComment l) cl ' ' := by
  have hcll : cl < l.length := lt_of_lt_of_le hcl (removeLineComment_length_le l)
  have hpair : ∀ (x : List Char) (q : Nat),
      listStartsWith slashSlash (x.drop q) = true ↔
      (x.get? q = some '/' ∧ x.get? (q + 1) = some '/') :=
    fun x q => listStartsWith_pair '/' '/' x q
  cases him : indexOfSub slashSlash l with
  | none =>
      have hnone := indexOfSub_none slashSlash l him
      have h2 : indexOfSub slashSlash (insertAt l cl ' ') = none := by
        cases him2 : indexOfSub slashSlash (insertAt l cl ' ') with
        | none => rfl
        | some p =>
            exfalso
            have hp := (indexOfSub_some slashSlash _ p him2).1
            rw [hpair] at hp
            rcases slash_pair_unshift l cl p (le_of_lt hcll) hp.1 hp.2 with
              ⟨_, ha1, ha2⟩ | ⟨_, ha1, ha2⟩
            · exact absurd ((hpair l p).mpr ⟨ha1, ha2⟩)
                (by rw [hnone p]; decide)
            · exact absurd ((hpair l (p - 1)).mpr ⟨ha1, by
                have he : p - 1 + 1 = p := by omega
                rw [he]; exact ha2⟩) (by rw [hnone (p - 1)]; decide)
      simp only [removeLineComment, him, h2]
  | some m =>
      have hrlc : removeLineComment l = l.take m := by
        simp only [removeLineComment, him]
      obtain ⟨hm1, hm2⟩ := indexOfSub_some slashSlash l m him
      rw [hpair] at hm1
      have hclm : cl < m := by
        rw [hrlc, List.length_take] at hcl
        omega
      have hocc1 : (insertAt l cl ' ').get? (m + 1) = some '/' := by
        rw [insertAt_get?_gt l cl ' ' (m + 1) (le_of_lt hcll) (by omega)]
        simpa using hm1.1
      have hocc2 : (insertAt l cl ' ').get? (m + 2) = some '/' := by
        rw [insertAt_get?_gt l cl ' ' (m + 2) (le_of_lt hcll) (by omega)]
        simpa using hm1.2
      have him2 : indexOfSub slashSlash (insertAt l cl ' ') = some (m + 1) := by
        apply indexOfSub_complete
        · rw [hpair]
          exact ⟨hocc1, hocc2⟩
        · intro q hq
          by_contra hcon
          rw [Bool.not_eq_false, hpair] at hcon
          rcases slash_pair_unshift l cl q (le_of_lt hcll) hcon.1 hcon.2 with
            ⟨hlt, ha1, ha2⟩ | ⟨hgt, ha1, ha2⟩
          · exact absurd ((hpair l q).mpr ⟨ha1, ha2⟩)
              (by rw [hm2 q (by omega)]; decide)
          · exact absurd ((hpair l (q - 1)).mpr ⟨ha1, by
              have he : q - 1 + 1 = q := by omega
              rw [he]; exact ha2⟩)
              (by rw [hm2 (q - 1) (by omega)]; decide)
      rw [hrlc]
      simp only [removeLineComment, him2]
      unfold insertAt
      rw [List.take_append_eq_append_take, List.take_take, List.length_take]
      have e1 : min (m + 1) cl = cl := by omega
      have e2 : m + 1 - min cl l.length = (m - cl) + 1 := by omega
      rw [e1, e2, List.take_succ_cons, List.drop_take, List.take_take]
      have e3 : min cl m = cl := by omega
      rw [e3]

/-! ## Effect of the quick-fix insertion on the scan of the line -/

/-- The `indexOf`-relocated `(` of a resolved call is exactly the paren the
regex matched: the whitespace run before it contains no `(` and ends on
it. -/
theorem resolved_call_open (u : List Char) (s j k0 o : Nat)
    (hm : matchCallAt u s = some (j, k0))
    (ho : strIndexOf u '(' j = some o) : o = k0 := by
  obtain ⟨hb, ⟨c, hgs, hci⟩, hj, hk, hko⟩ := matchCallAt_inv u s j k0 hm
  obtain ⟨hjo, hoo, homin⟩ := strIndexOf_spec u '(' j o ho
  by_cases hlt : o < k0
  · exfalso
    obtain ⟨c2, hc2, hsp2⟩ := scanEnd_all isSpaceJS u j o hjo (by rw [← hk]; exact hlt)
    rw [hoo] at hc2
    simp only [Option.some.injEq] at hc2
    rw [← hc2] at hsp2
    exact absurd hsp2 (by decide)
  by_cases hgt : k0 < o
  · exact absurd hko (homin k0 (by rw [hk]; exact scanEnd_ge isSpaceJS u j) hgt)
  omega

/-- Inserting the space just before the matched `)` leaves the call intact
with its argument substring extended by one trailing space, so the call
becomes clean: the rescanned line carries no diagnostic at the call's
start character. -/
theorem scanLine_insert_no_diag (n : Nat) (u : List Char) (s o cl : Nat)
    (hmem : (s, o, cl) ∈ detectedCalls u 0)
    (hA : hasLeadingWS (argsOf u o cl) = true)
    (hblank : (argsOf u o cl).all isSpaceJS = false) :
    ∀ d ∈ scanLine n (insertAt u cl ' ') 0, d.range.start.character ≠ s := by
  obtain ⟨j, k0, hm, ho, hclo⟩ := detectedCalls_sound u 0 s o cl hmem
  have hko : o = k0 := resolved_call_open u s j k0 o hm ho
  subst hko
  obtain ⟨hb, ⟨c, hgs, hci⟩, hj, hk, hgo⟩ := matchCallAt_inv u s j o hm
  obtain ⟨hjo, hoo, homin⟩ := strIndexOf_spec u '(' j o ho
  obtain ⟨hocl, hclc⟩ := findClose_spec u o cl hoo hclo
  have hcllen : cl < u.length := (List.get?_eq_some.mp hclc).1
  have hclle : cl ≤ u.length := le_of_lt hcllen
  have hsj : s < j := (matchCallAt_bounds u s j o hm).1
  have hargsne : o + 1 < cl := by
    by_contra hcon
    push_neg at hcon
    have hnil : argsOf u o cl = [] := by
      unfold argsOf
      have he : cl - (o + 1) = 0 := by omega
      rw [he, List.take_zero]
    rw [hnil] at hA
    simp [hasLeadingWS] at hA
  have hag : ∀ i, i < cl → (insertAt u cl ' ').get? i = u.get? i := fun i hi =>
    insertAt_get?_lt u cl ' ' i hclle hi
  have hb2 : boundaryOk (insertAt u cl ' ') s = true := by
    cases s with
    | zero => rfl
    | succ t =>
        simp only [boundaryOk] at hb ⊢
        rw [hag t (by omega)]
        exact hb
  have hsw : scanEnd isWordChar (insertAt u cl ' ') (s + 1) = j := by
    apply scanEnd_congr isWordChar u (insertAt u cl ' ') j (s + 1)
    · intro i h1 h2
      exact hag i (by omega)
    · exact hj.symm
  have hss : scanEnd isSpaceJS (insertAt u cl ' ') j = o := by
    apply scanEnd_congr isSpaceJS u (insertAt u cl ' ') o j
    · intro i h1 h2
      exact hag i (by omega)
    · exact hk.symm
  have hgo2 : (insertAt u cl ' ').get? o = some '(' := by
    rw [hag o (by omega)]
    exact hoo
  have hgs2 : (insertAt u cl ' ').get? s = some c := by
    rw [hag s (by omega)]
    exact hgs
  have hm2 : matchCallAt (insertAt u cl ' ') s = some (j, o) := by
    have hgs2x : (insertAt u cl ' ')[s]? = some c := by
      rw [← List.get?_eq_getElem?]
      exact hgs2
    have hgo2x : (insertAt u cl ' ')[o]? = some '(' := by
      rw [← List.get?_eq_getElem?]
      exact hgo2
    simp [matchCallAt, hgs2x, hb2, hci, hsw, hss, hgo2x]
  have ho2 : strIndexOf (insertAt u cl ' ') '(' j = some o := by
    apply strIndexOf_complete (insertAt u cl ' ') '(' j o hjo hgo2
    intro q h1 h2
    rw [hag q (by omega)]
    exact homin q h1 h2
  have hcl2 : findClose (insertAt u cl ' ') o = some (cl + 1) := by
    unfold findClose at hclo ⊢
    exact findCloseAux_insert u cl hclc o 0 (by omega) hclo
  have hargs2 : argsOf (insertAt u cl ' ') o (cl + 1) = argsOf u o cl ++ [' '] := by
    unfold argsOf insertAt
    rw [List.drop_append_eq_append_drop, List.length_take]
    have e0 : (o + 1) - min cl u.length = 0 := by omega
    rw [e0, List.drop_zero, List.drop_take]
    have hlenargs : ((u.drop (o + 1)).take (cl - (o + 1))).length = cl - (o + 1) := by
      rw [List.length_take, List.length_drop]
      omega
    have e1 : cl + 1 - (o + 1) =
        ((u.drop (o + 1)).take (cl - (o + 1))).length + 1 := by
      rw [hlenargs]; omega
    rw [e1, List.take_append, List.take_succ_cons, List.take_zero]
  have hargsNe : argsOf u o cl ≠ [] := by
    intro he
    rw [he] at hblank
    simp at hblank
  have hnone : diagFor n (insertAt u cl ' ') (s, o, cl + 1) = none := by
    have hb1 : (argsOf (insertAt u cl ' ') o (cl + 1)).all isSpaceJS = false := by
      rw [hargs2, List.all_append, hblank]
      rfl
    have hbl : hasLeadingWS (argsOf (insertAt u cl ' ') o (cl + 1)) = true := by
      rw [hargs2]
      cases hargs0 : argsOf u o cl with
      | nil => exact absurd hargs0 hargsNe
      | cons a t =>
          rw [hargs0] at hA
          simpa [hasLeadingWS] using hA
    have hbt : hasTrailingWS (argsOf (insertAt u cl ' ') o (cl + 1)) = true := by
      rw [hargs2]
      simp [hasTrailingWS, List.getLast?_concat, isSpaceJS]
    simp [diagFor, hb1, hbl, hbt]
  intro d hd hds
  rw [scanLine_eq_calls] at hd
  obtain ⟨c', hc', hdf⟩ := List.mem_filterMap.mp hd
  obtain ⟨s', o', cl'⟩ := c'
  have hsh := diagFor_some_shape n (insertAt u cl ' ') s' o' cl' d hdf
  have hs' : s' = s := by
    rw [hsh.2.1] at hds
    simpa using hds
  subst hs'
  obtain ⟨j', k', hm', ho', hcl'⟩ :=
    detectedCalls_sound (insertAt u cl ' ') 0 s' o' cl' hc'
  rw [hm2] at hm'
  simp only [Option.some.injEq, Prod.mk.injEq] at hm'
  obtain ⟨hj', hk'⟩ := hm'
  subst hj'
  subst hk'
  rw [ho2] at ho'
  simp only [Option.some.injEq] at ho'
  subst ho'
  rw [hcl2] at hcl'
  simp only [Option.some.injEq] at hcl'
  subst hcl'
  rw [hnone] at hdf
  cases hdf

/-- Computation rule for the quick-fix generator once the last `)` of the
spanned text is located. -/
theorem fixFunctionSapces_eq (lines : List (List Char)) (d : Diagnostic) (p : Nat)
    (h : lastIndexOfChar (getTextInRange lines d.range) ')' = some p) :
    fixFunctionSapces lines d = some ⟨d.range,
      (getTextInRange lines d.range).take p ++
        ' ' :: ')' :: (getTextInRange lines d.range).drop (p + 1)⟩ := by
  unfold fixFunctionSapces
  simp only [h]

/-- Splicing the edit's new text into the line between the range ends is
exactly the insertion of one space before the `)` that closes the range. -/
theorem insertAt_split (l : List Char) (s cl : Nat) (hs : s ≤ cl)
    (hcl : cl < l.length) (hget : l.get? cl = some ')') :
    insertAt l cl ' ' =
      l.take s ++ (((l.drop s).take (cl + 1 - s)).take (cl - s) ++
        ' ' :: ')' :: ((l.drop s).take (cl + 1 - s)).drop (cl - s + 1)) ++
      l.drop (cl + 1) := by
  obtain ⟨t, ht⟩ : ∃ t, cl = s + t := ⟨cl - s, by omega⟩
  subst ht
  have e1 : s + t + 1 - s = t + 1 := by omega
  have e2 : s + t - s = t := by omega
  rw [e1, e2, List.take_take, List.drop_take]
  have e3 : min t (t + 1) = t := by omega
  have e4 : t + 1 - (t + 1) = 0 := by omega
  rw [e3, e4, List.take_zero]
  have hdrop : l.drop (s + t) = ')' :: l.drop (s + t + 1) := by
    rw [List.drop_eq_getElem_cons hcl]
    have hg := hget
    rw [List.get?_eq_get hcl] at hg
    simp only [List.get_eq_getElem, Option.some.injEq] at hg
    rw [hg]
  unfold insertAt
  rw [List.take_add, hdrop]
  simp [List.append_assoc]

/-- C4 — for every diagnostic of the lint run carrying the
missing-space-before-`)` message: the code-action guard accepts it, the
quick-fix generator reads exactly the text spanned by the diagnostic's
range and produces an edit over that same range whose new text is the
spanned text with one space inserted before its last `)`, and re-running
the lint rule over the patched document yields no diagnostic at the
original diagnostic's start position. -/
theorem fixFunctionSapces_round_trip (text : List Char) (uri : String)
    (d : Diagnostic) (hd : d ∈ checkFunctionSpaces text uri)
    (hmsg : d.message = msgBefore) :
    codeActionApplies d = true ∧
    ∃ e, fixFunctionSapces (splitLines text) d = some e ∧
      e.range = d.range ∧
      (∃ p, lastIndexOfChar (getTextInRange (splitLines text) d.range) ')' =
          some p ∧
        e.newText = insertAt (getTextInRange (splitLines text) d.range) p ' ') ∧
      ∀ d2 ∈ checkLines (applyEditToLines (splitLines text) e) 0 false,
        d2.range.start ≠ d.range.start := by
  have hd0 : d ∈ checkLines (splitLines text) 0 false := hd
  obtain ⟨k, hk, bk, hmem⟩ := checkLines_mem_inv (splitLines text) 0 false d hd0
  rw [Nat.zero_add] at hmem
  obtain ⟨hlc, hq, hscan⟩ :=
    lintLine_mem_inv k ((splitLines text).get ⟨k, hk⟩) bk d hmem
  have hqni : '"' ∉ (splitLines text).get ⟨k, hk⟩ := by simpa using hq
  have hqru : '"' ∉ removeLineComment ((splitLines text).get ⟨k, hk⟩) :=
    fun hx => hqni (removeLineComment_sub _ _ hx)
  rw [stripStrings_id_of_no_quote _ hqru, scanLine_eq_calls] at hscan
  obtain ⟨c0, hcall, hdf⟩ := List.mem_filterMap.mp hscan
  obtain ⟨s, o, cl⟩ := c0
  obtain ⟨hblank, hA, hB, hdrec⟩ := diagFor_msgBefore_inv k _ s o cl d hdf hmsg
  obtain ⟨j, k0, hm, ho, hclo⟩ :=
    detectedCalls_sound (removeLineComment ((splitLines text).get ⟨k, hk⟩)) 0 s o cl
      hcall
  have hko : o = k0 :=
    resolved_call_open (removeLineComment ((splitLines text).get ⟨k, hk⟩)) s j k0 o
      hm ho
  subst hko
  obtain ⟨hjo, hoo, homin⟩ :=
    strIndexOf_spec (removeLineComment ((splitLines text).get ⟨k, hk⟩)) '(' j o ho
  obtain ⟨hocl, hclc⟩ :=
    findClose_spec (removeLineComment ((splitLines text).get ⟨k, hk⟩)) o cl hoo hclo
  have hcllen : cl < (removeLineComment ((splitLines text).get ⟨k, hk⟩)).length :=
    (List.get?_eq_some.mp hclc).1
  have hsj : s < j :=
    (matchCallAt_bounds (removeLineComment ((splitLines text).get ⟨k, hk⟩)) s j o hm).1
  have hscl : s < cl := by omega
  have hlcl : ((splitLines text).get ⟨k, hk⟩).get? cl = some ')' :=
    removeLineComment_get? ((splitLines text).get ⟨k, hk⟩) cl ')' hclc
  have hlcll : cl < ((splitLines text).get ⟨k, hk⟩).length :=
    (List.get?_eq_some.mp hlcl).1
  subst hdrec
  have hgetD : (splitLines text).getD k [] = (splitLines text).get ⟨k, hk⟩ := by
    rw [List.getD_eq_getElem (splitLines text) [] hk]
    simp
  have hspan : getTextInRange (splitLines text) ⟨⟨k, s⟩, ⟨k, cl + 1⟩⟩ =
      ((removeLineComment ((splitLines text).get ⟨k, hk⟩)).drop s).take (cl + 1 - s) := by
    show (((splitLines text).getD k []).drop s).take (cl + 1 - s) = _
    rw [hgetD]
    exact (removeLineComment_span ((splitLines text).get ⟨k, hk⟩) s cl hcllen).symm
  have hspanl : getTextInRange (splitLines text) ⟨⟨k, s⟩, ⟨k, cl + 1⟩⟩ =
      (((splitLines text).get ⟨k, hk⟩).drop s).take (cl + 1 - s) := by
    rw [hspan]
    exact removeLineComment_span ((splitLines text).get ⟨k, hk⟩) s cl hcllen
  have hlensp :
      (((removeLineComment ((splitLines text).get ⟨k, hk⟩)).drop s).take
        (cl + 1 - s)).length = (cl - s) + 1 := by
    rw [List.length_take, List.length_drop]
    omega
  have hgetsp :
      (((removeLineComment ((splitLines text).get ⟨k, hk⟩)).drop s).take
        (cl + 1 - s)).get? (cl - s) = some ')' := by
    rw [List.get?_take (by omega), List.get?_drop]
    have he : s + (cl - s) = cl := by omega
    rw [he]
    exact hclc
  have hlast : lastIndexOfChar
      (((removeLineComment ((splitLines text).get ⟨k, hk⟩)).drop s).take
        (cl + 1 - s)) ')' = some (cl - s) :=
    lastIndexOfChar_last _ ')' (cl - s) hlensp hgetsp
  have hlast2 : lastIndexOfChar
      (getTextInRange (splitLines text) ⟨⟨k, s⟩, ⟨k, cl + 1⟩⟩) ')' =
      some (cl - s) := by
    rw [hspan]
    exact hlast
  have hfix := fixFunctionSapces_eq (splitLines text)
    ⟨.warning, ⟨⟨k, s⟩, ⟨k, cl + 1⟩⟩, msgBefore, "afl-lsp"⟩ (cl - s) hlast2
  refine ⟨?_, ⟨⟨⟨k, s⟩, ⟨k, cl + 1⟩⟩,
      (getTextInRange (splitLines text) ⟨⟨k, s⟩, ⟨k, cl + 1⟩⟩).take (cl - s) ++
        ' ' :: ')' ::
        (getTextInRange (splitLines text) ⟨⟨k, s⟩, ⟨k, cl + 1⟩⟩).drop (cl - s + 1)⟩,
      ?_, rfl, ⟨cl - s, hlast2, ?_⟩, ?_⟩
  · show containsSub ('s' :: 'p' :: 'a' :: 'c' :: 'e' :: ' ' :: 'b' :: 'e' :: 'f' ::
        'o' :: 'r' :: 'e' :: ' ' :: '\'' :: ')' :: '\'' :: []) msgBefore.data = true
    decide
  · exact hfix
  · show (getTextInRange (splitLines text) ⟨⟨k, s⟩, ⟨k, cl + 1⟩⟩).take (cl - s) ++
        ' ' :: ')' ::
        (getTextInRange (splitLines text) ⟨⟨k, s⟩, ⟨k, cl + 1⟩⟩).drop (cl - s + 1) =
      insertAt (getTextInRange (splitLines text) ⟨⟨k, s⟩, ⟨k, cl + 1⟩⟩) (cl - s) ' '
    rw [hspanl]
    have hlt : cl - s < ((((splitLines text).get ⟨k, hk⟩).drop s).take
        (cl + 1 - s)).length := by
      rw [List.length_take, List.length_drop]
      omega
    have hg2 : ((((splitLines text).get ⟨k, hk⟩).drop s).take
        (cl + 1 - s)).get? (cl - s) = some ')' := by
      rw [List.get?_take (by omega), List.get?_drop]
      have he : s + (cl - s) = cl := by omega
      rw [he]
      exact hlcl
    have hdropsp : ((((splitLines text).get ⟨k, hk⟩).drop s).take
        (cl + 1 - s)).drop (cl - s) =
        ')' :: ((((splitLines text).get ⟨k, hk⟩).drop s).take
          (cl + 1 - s)).drop (cl - s + 1) := by
      rw [List.drop_eq_getElem_cons hlt]
      rw [List.get?_eq_get hlt] at hg2
      simp only [List.get_eq_getElem, Option.some.injEq] at hg2
      simp only [List.get_eq_getElem]
      rw [hg2]
    unfold insertAt
    rw [hdropsp]
  · intro d2 hd2 heq
    have happly : applyEditToLines (splitLines text)
        ⟨⟨⟨k, s⟩, ⟨k, cl + 1⟩⟩,
          (getTextInRange (splitLines text) ⟨⟨k, s⟩, ⟨k, cl + 1⟩⟩).take (cl - s) ++
            ' ' :: ')' ::
            (getTextInRange (splitLines text) ⟨⟨k, s⟩, ⟨k, cl + 1⟩⟩).drop (cl - s + 1)⟩ =
        (splitLines text).set k
          (insertAt ((splitLines text).get ⟨k, hk⟩) cl ' ') := by
      show (splitLines text).set k
          (((splitLines text).getD k []).take s ++
            ((getTextInRange (splitLines text) ⟨⟨k, s⟩, ⟨k, cl + 1⟩⟩).take (cl - s) ++
              ' ' :: ')' ::
              (getTextInRange (splitLines text) ⟨⟨k, s⟩, ⟨k, cl + 1⟩⟩).drop (cl - s + 1)) ++
            ((splitLines text).getD k []).drop (cl + 1)) = _
      rw [hgetD, hspanl]
      congr 1
      exact (insertAt_split ((splitLines text).get ⟨k, hk⟩) s cl (by omega)
        hlcll hlcl).symm
    rw [happly] at hd2
    obtain ⟨k2, hk2, bk2, hmem2⟩ := checkLines_mem_inv _ 0 false d2 hd2
    rw [Nat.zero_add] at hmem2
    have hline2 : d2.range.start.line = k2 := lintLine_start_line k2 _ bk2 d2 hmem2
    by_cases hkk : k2 = k
    · subst hkk
      have hgetset : (((splitLines text).set k2
          (insertAt ((splitLines text).get ⟨k2, hk⟩) cl ' ')).get ⟨k2, hk2⟩) =
          insertAt ((splitLines text).get ⟨k2, hk⟩) cl ' ' := by
        simp [List.getElem_set_self]
      rw [hgetset] at hmem2
      obtain ⟨hlc2, hq2, hscan2⟩ := lintLine_mem_inv k2 _ bk2 d2 hmem2
      rw [removeLineComment_insertAt ((splitLines text).get ⟨k2, hk⟩) cl hcllen]
        at hscan2
      have hq2i : '"' ∉ insertAt
          (removeLineComment ((splitLines text).get ⟨k2, hk⟩)) cl ' ' := by
        intro hx
        unfold insertAt at hx
        simp only [List.mem_append, List.mem_cons] at hx
        rcases hx with hx | hx | hx
        · exact hqru (List.mem_of_mem_take hx)
        · exact absurd hx (by decide)
        · exact hqru (List.mem_of_mem_drop hx)
      rw [stripStrings_id_of_no_quote _ hq2i] at hscan2
      have hnod := scanLine_insert_no_diag k2
        (removeLineComment ((splitLines text).get ⟨k2, hk⟩)) s o cl hcall hA hblank
        d2 hscan2
      apply hnod
      rw [heq]
    · apply hkk
      rw [← hline2, heq]

/-- Witness for C4: on the document `f( a)` the missing-space-before-`)`
diagnostic spans characters 0–5 of line 0; the guard accepts it, the fix
spans the same range, inserts one space before the final `)` and the
patched line `f( a )` rescans with no diagnostic at character 0. -/
theorem fixFunctionSapces_round_trip_witness :
    codeActionApplies ⟨.warning, ⟨⟨0, 0⟩, ⟨0, 5⟩⟩, msgBefore, "afl-lsp"⟩ = true ∧
    ∃ e, fixFunctionSapces (splitLines ('f' :: '(' :: ' ' :: 'a' :: ')' :: []))
        ⟨.warning, ⟨⟨0, 0⟩, ⟨0, 5⟩⟩, msgBefore, "afl-lsp"⟩ = some e ∧
      e.range =
        (⟨.warning, ⟨⟨0, 0⟩, ⟨0, 5⟩⟩, msgBefore, "afl-lsp"⟩ : Diagnostic).range ∧
      (∃ p, lastIndexOfChar
          (getTextInRange (splitLines ('f' :: '(' :: ' ' :: 'a' :: ')' :: []))
            (⟨.warning, ⟨⟨0, 0⟩, ⟨0, 5⟩⟩, msgBefore, "afl-lsp"⟩ : Diagnostic).range)
          ')' = some p ∧
        e.newText = insertAt
          (getTextInRange (splitLines ('f' :: '(' :: ' ' :: 'a' :: ')' :: []))
            (⟨.warning, ⟨⟨0, 0⟩, ⟨0, 5⟩⟩, msgBefore, "afl-lsp"⟩ : Diagnostic).range)
          p ' ') ∧
      ∀ d2 ∈ checkLines
          (applyEditToLines (splitLines ('f' :: '(' :: ' ' :: 'a' :: ')' :: [])) e)
          0 false,
        d2.range.start ≠
          (⟨.warning, ⟨⟨0, 0⟩, ⟨0, 5⟩⟩, msgBefore, "afl-lsp"⟩ : Diagnostic).range.start :=
  fixFunctionSapces_round_trip ('f' :: '(' :: ' ' :: 'a' :: ')' :: [])
    "file:///w.afl" ⟨.warning, ⟨⟨0, 0⟩, ⟨0, 5⟩⟩, msgBefore, "afl-lsp"⟩
    (by decide) rfl

end AflSupport
